import Mathlib

/-!
# ssh-get-id: key tables, parsing and merging

A shallow embedding of `main.go` of `mengzhuo/ssh-get-id`.

* Go `string` and `[]byte` values are lists of characters (`Text`); buffers are
  therefore valid UTF-8 text, and a `nil` slice is the empty list.
* `*Entry` pointers are embedded as `Entry` values.  The only mutation through
  such a pointer is the comment stamping of `getRemoteKeys`, which happens on a
  fresh table and is applied to the list and to the map alike.
* A Go `map[string]*Entry` is an association list with distinct keys.  The
  order in which `range` enumerates a map is not fixed by the language, so every
  loop over a map takes the enumeration as an explicit oracle.
* The functions of `golang.org/x/crypto/ssh` that `main.go` calls are the
  fields of a structure `SSH`.  `xcrypto` further down is the loop of
  `ssh.ParseAuthorizedKey` over the lines of a buffer; what the library does
  with one line, and the text of its error, are parameters of it
  (`LineReader`).  `xcryptoReader` is the reading of one line as in the
  releases of the library up to v0.42.0; it serves to evaluate the program on
  sample buffers.
-/

set_option maxRecDepth 100000

namespace SshGetId

/-- Byte strings of the program (`string`, `[]byte`). -/
abbrev Text := List Char

/-- Entry of a key table: `type Entry struct { key; comment; options }`. -/
structure Entry (Key : Type) where
  key : Key
  comment : Text
  options : List Text
deriving DecidableEq, Repr

/-- Ordered part of a table, `[]*Entry`. -/
abbrev Entries (Key : Type) := List (Entry Key)

/-- Identity index of a table, `map[string]*Entry`, as an association list. -/
abbrev IdMap (Key : Type) := List (Text × Entry Key)

/-- Key table: `type KeyTable struct { List []*Entry; m map[string]*Entry }`.
Every table of the program is made by `newKt`, so `m` is never nil; a nil map
reads like the empty one, which is all `parseKeys` asks of it. -/
structure KeyTable (Key : Type) where
  List : Entries Key
  m : IdMap Key
deriving DecidableEq, Repr

/-- Go `unicode.IsSpace`: the Latin-1 white space and the White_Space table. -/
def isSpace (c : Char) : Bool :=
  let n := c.toNat
  (9 ≤ n && n ≤ 13) || n == 32 || n == 133 || n == 160 || n == 5760 ||
  (8192 ≤ n && n ≤ 8202) || n == 8232 || n == 8233 || n == 8239 || n == 8287 ||
  n == 12288

/-- Leading part of `TrimSpace`: drop white space at the front. -/
def trimLeft : Text → Text
  | [] => []
  | c :: cs => if isSpace c then trimLeft cs else c :: cs

/-- Go `strings.TrimSpace` / `bytes.TrimSpace`. -/
def TrimSpace (s : Text) : Text :=
  (trimLeft (trimLeft s).reverse).reverse

/-- The part of `golang.org/x/crypto/ssh` used by `main.go`.
`ParseAuthorizedKey` returns `(out, comment, options, rest)` or an error.
`rest_lt` records that a successful call consumes at least one byte, which is
what makes the loop of `parseKeys` terminate. -/
structure SSH (Key : Type) where
  ParseAuthorizedKey : Text → Except Text (Key × Text × List Text × Text)
  MarshalAuthorizedKey : Key → Text
  rest_lt : ∀ data key comment options rest,
    ParseAuthorizedKey data = Except.ok (key, comment, options, rest) →
    rest.length < data.length

variable {Key : Type}

/-- Canonical identity of an entry: `string(ssh.MarshalAuthorizedKey(e.key))`. -/
def identity (lib : SSH Key) (e : Entry Key) : Text :=
  lib.MarshalAuthorizedKey e.key

/-- Go `func (e *Entry) String() string`. -/
def Entry.String (lib : SSH Key) (e : Entry Key) : Text :=
  let c := TrimSpace (lib.MarshalAuthorizedKey e.key)
  if e.comment ≠ [] then c ++ " ".toList ++ e.comment else c

/-- Go map read `v, ok := m[k]`. -/
def mapGet (m : IdMap Key) (k : Text) : Option (Entry Key) :=
  match m with
  | [] => none
  | (k', v) :: rest => if k' = k then some v else mapGet rest k

/-- Go map write `m[k] = v`: replaces the binding of `k` or adds one. -/
def mapSet (m : IdMap Key) (k : Text) (v : Entry Key) : IdMap Key :=
  match m with
  | [] => [(k, v)]
  | (k', v') :: rest => if k' = k then (k, v) :: rest else (k', v') :: mapSet rest k v

/-- Go `newKt()`. -/
def newKt : KeyTable Key := { List := [], m := [] }

/-- Body of the `parseKeys` loop after a successful `ssh.ParseAuthorizedKey`:
lines 168-177. -/
def parseKeysStep (lib : SSH Key) (kt : KeyTable Key)
    (key : Key) (comment : Text) (options : List Text) : KeyTable Key :=
  let id := lib.MarshalAuthorizedKey key
  match mapGet kt.m id with
  | some _ => kt
  | none =>
    let e : Entry Key := { key := key, comment := comment, options := options }
    { List := kt.List ++ [e], m := mapSet kt.m id e }

/-- The loop `for len(data) > 0` of `parseKeys`, with a bound on the number of
iterations.  The result is the table as mutated in place and the returned error. -/
def parseKeysLoop (lib : SSH Key) : Nat → KeyTable Key → Text → KeyTable Key × Option Text
  | 0, kt, _ => (kt, none)
  | fuel + 1, kt, data =>
    if data.length > 0 then
      match lib.ParseAuthorizedKey data with
      | Except.error err => (kt, some err)
      | Except.ok (key, comment, options, rest) =>
        parseKeysLoop lib fuel (parseKeysStep lib kt key comment options) rest
    else (kt, none)

/-- Go `func (kt *KeyTable) parseKeys(data []byte) (err error)`.  Every
iteration consumes a byte (`SSH.rest_lt`), so `len(data)` iterations suffice. -/
def parseKeys (lib : SSH Key) (kt : KeyTable Key) (data : Text) : KeyTable Key × Option Text :=
  parseKeysLoop lib data.length kt data

/-- The loop of `mergeKeys` over the pairs of `rk.m` in the order `range`
yields them; the second component collects the `log.Printf` messages. -/
def mergeKeysLoop (lib : SSH Key) (warn : Bool) :
    IdMap Key → KeyTable Key → List Text → KeyTable Key × List Text
  | [], kt, log => (kt, log)
  | (hk, e) :: more, kt, log =>
    match mapGet kt.m hk with
    | some ee =>
      mergeKeysLoop lib warn more kt
        (if warn then log ++ ["Already authorized:".toList ++ Entry.String lib ee] else log)
    | none =>
      mergeKeysLoop lib warn more { List := kt.List ++ [e], m := mapSet kt.m hk e } log

/-- Go `func (kt *KeyTable) mergeKeys(rk *KeyTable, warn bool)`.  `range` is the
order in which `for hk, e := range rk.m` enumerates the map. -/
def mergeKeys (lib : SSH Key) (range : IdMap Key → IdMap Key)
    (kt rk : KeyTable Key) (warn : Bool) : KeyTable Key × List Text :=
  mergeKeysLoop lib warn (range rk.m) kt []

/-! ## The loop of `ssh.ParseAuthorizedKey` and the reading of one line -/

/-- Decoding and encoding of key material, the part of the library below the
line format.  `decode` is `base64.StdEncoding.Decode` followed by
`ssh.ParsePublicKey`, applied to the base64 field of a line. -/
structure KeyCodec (Key : Type) where
  decode : Text → Option Key
  MarshalAuthorizedKey : Key → Text

/-- The set `" \t"` of `bytes.IndexAny(in, " \t")`. -/
def isSpTab (c : Char) : Bool := c == ' ' || c == '\t'

/-- Go `bytes.IndexByte` / `bytes.IndexAny`: first index whose byte satisfies
`p`, `none` for `-1`. -/
def indexOf? (p : Char → Bool) : Text → Option Nat
  | [] => none
  | c :: cs => if p c then some 0 else (indexOf? p cs).map (· + 1)

/-- Library function `parseAuthorizedKey(in []byte) (out, comment, err)`: the
base64 field and the comment after it. -/
def parseAuthorizedKey (codec : KeyCodec Key) (inp : Text) : Option (Key × Text) :=
  let s := TrimSpace inp
  let i := match indexOf? isSpTab s with
    | some i => i
    | none => s.length
  match codec.decode (s.take i) with
  | none => none
  | some out => some (out, TrimSpace (s.drop i))

/-- The loop `for i, b = range in` that collects candidate options.  The
arguments are the bytes still to visit, the index `i`, `inQuote`,
`optionStart` and `candidateOptions`; the result is the final `i` and the
options. -/
def optionsLoop (inp : Text) : Text → Nat → Bool → Nat → List Text → Nat × List Text
  | [], i, _, _, cand => (i - 1, cand)
  | b :: more, i, inQuote, optionStart, cand =>
    let isEnd := !inQuote && (b == ' ' || b == '\t')
    let split := (b == ',' && !inQuote) || isEnd
    let cand1 :=
      if split && decide (i - optionStart > 0) then
        cand ++ [(inp.drop optionStart).take (i - optionStart)]
      else cand
    let optionStart1 := if split then i + 1 else optionStart
    if isEnd then (i, cand1)
    else
      let inQuote1 :=
        if b == '"' && (i == 0 || inp.get? (i - 1) != some '\\') then !inQuote else inQuote
      optionsLoop inp more (i + 1) inQuote1 optionStart1 cand1

/-- One iteration of the loop of `ssh.ParseAuthorizedKey` on the line `inp`
(already cut at the line feed), as in the releases of the library up to
v0.42.0: `some (out, comment, options)` when the iteration returns, `none`
when it continues with the next line. -/
def parseLine (codec : KeyCodec Key) (inp : Text) : Option (Key × Text × List Text) :=
  let inp := match indexOf? (· == '\r') inp with
    | some e => inp.take e
    | none => inp
  let inp := TrimSpace inp
  if inp.length == 0 || inp.head? == some '#' then none
  else
    match indexOf? isSpTab inp with
    | none => none
    | some i =>
      match parseAuthorizedKey codec (inp.drop i) with
      | some (out, comment) => some (out, comment, [])
      | none =>
        let (i, candidateOptions) := optionsLoop inp inp 0 false 0 []
        let i := i + ((inp.drop i).takeWhile isSpTab).length
        if i == inp.length then none
        else
          let inp := inp.drop i
          match indexOf? isSpTab inp with
          | none => none
          | some i =>
            match parseAuthorizedKey codec (inp.drop i) with
            | some (out, comment) => some (out, comment, candidateOptions)
            | none => none

/-- The first line of a buffer, `in[:end]` for `end = IndexByte(in, '\n')`. -/
def firstLine (inp : Text) : Text := inp.takeWhile (· != '\n')

/-- What follows the first line, `in[end+1:]`, and `nil` without a line feed. -/
def afterLine (inp : Text) : Text := (inp.dropWhile (· != '\n')).drop 1

/-- What `ssh.ParseAuthorizedKey` does below its loop over the lines of a
buffer: `parseLine` is one iteration of the loop on a line already cut at the
line feed (`some (out, comment, options)` when the iteration returns, `none`
when it goes on to the next line), `noKey` is the text of the error returned
when no line of the buffer gave a key. -/
structure LineReader (Key : Type) where
  parseLine : Text → Option (Key × Text × List Text)
  noKey : Text → Text
  MarshalAuthorizedKey : Key → Text

/-- The loop `for len(in) > 0` of `ssh.ParseAuthorizedKey` with a bound on the
number of lines visited: the first line that gives a key, with the rest of the
buffer after it, or `none` when the loop ends without a key. -/
def ParseAuthorizedKeyLoop (rd : LineReader Key) :
    Nat → Text → Option (Key × Text × List Text × Text)
  | 0, _ => none
  | fuel + 1, inp =>
    if inp.length > 0 then
      match rd.parseLine (firstLine inp) with
      | some (out, comment, options) => some (out, comment, options, afterLine inp)
      | none => ParseAuthorizedKeyLoop rd fuel (afterLine inp)
    else none

/-- Library function `ssh.ParseAuthorizedKey`.  Every line visited takes a byte
off the buffer, so `len(in)` iterations suffice. -/
def ParseAuthorizedKey (rd : LineReader Key) (inp : Text) :
    Except Text (Key × Text × List Text × Text) :=
  match ParseAuthorizedKeyLoop rd inp.length inp with
  | some r => Except.ok r
  | none => Except.error (rd.noKey inp)

/-- The library over a given reading of lines, as used by `main.go`. -/
def xcrypto (rd : LineReader Key) : SSH Key where
  ParseAuthorizedKey := ParseAuthorizedKey rd
  MarshalAuthorizedKey := rd.MarshalAuthorizedKey
  rest_lt := by
    have shorter : ∀ inp : Text, 0 < inp.length → (afterLine inp).length < inp.length := by
      intro inp h
      unfold afterLine
      have h1 := (List.dropWhile_sublist (fun c => c != '\n') (l := inp)).length_le
      rw [List.length_drop]
      omega
    have main : ∀ fuel inp key comment options rest,
        ParseAuthorizedKeyLoop rd fuel inp = some (key, comment, options, rest) →
        rest.length < inp.length := by
      intro fuel
      induction fuel with
      | zero => intro inp key comment options rest h; simp [ParseAuthorizedKeyLoop] at h
      | succ n ih =>
        intro inp key comment options rest h
        unfold ParseAuthorizedKeyLoop at h
        split at h
        · rename_i hpos
          split at h
          · simp only [Option.some.injEq, Prod.mk.injEq] at h
            obtain ⟨_, _, _, hr⟩ := h
            rw [← hr]
            exact shorter inp hpos
          · have := ih _ _ _ _ _ h
            have := shorter inp hpos
            omega
        · simp at h
    intro data key comment options rest h
    unfold ParseAuthorizedKey at h
    split at h
    · rename_i r hr
      simp only [Except.ok.injEq] at h
      subst h
      exact main _ _ _ _ _ _ hr
    · exact Except.noConfusion h

/-- The reading of one line as in the releases of the library up to v0.42.0,
over a key codec; the error text is that of these releases. -/
def xcryptoReader (codec : KeyCodec Key) : LineReader Key where
  parseLine := parseLine codec
  noKey := fun _ => "ssh: no key found".toList
  MarshalAuthorizedKey := codec.MarshalAuthorizedKey

/-! ## A key codec: base64 and the wire format of `ssh-ed25519` -/

/-- Value of a character in the alphabet of `base64.StdEncoding`. -/
def b64val (c : Char) : Option Nat :=
  let n := c.toNat
  if 65 ≤ n ∧ n ≤ 90 then some (n - 65)
  else if 97 ≤ n ∧ n ≤ 122 then some (n - 71)
  else if 48 ≤ n ∧ n ≤ 57 then some (n + 4)
  else if n = 43 then some 62
  else if n = 47 then some 63
  else none

/-- Decoding of the 4-character quanta of padded base64; the padding `=` may
only close the last quantum. -/
def b64decodeQuanta : Text → Option (List Nat)
  | [] => some []
  | a :: b :: c :: d :: rest =>
    match b64val a, b64val b with
    | some va, some vb =>
      if c = '=' then
        if d = '=' ∧ rest = [] then some [(va * 4 + vb / 16) % 256] else none
      else
        match b64val c with
        | none => none
        | some vc =>
          if d = '=' then
            if rest = [] then some [(va * 4 + vb / 16) % 256, (vb * 16 + vc / 4) % 256]
            else none
          else
            match b64val d, b64decodeQuanta rest with
            | some vd, some more =>
              some ((va * 4 + vb / 16) % 256 :: (vb * 16 + vc / 4) % 256 ::
                (vc * 64 + vd) % 256 :: more)
            | _, _ => none
    | _, _ => none
  | _ => none

/-- Go `base64.StdEncoding.Decode`: carriage returns and line feeds are
skipped, anything else outside the alphabet is an error. -/
def b64decode (src : Text) : Option (List Nat) :=
  b64decodeQuanta (src.filter (fun c => c != '\r' && c != '\n'))

/-- Character of a 6-bit value in the alphabet of `base64.StdEncoding`. -/
def b64char (n : Nat) : Char :=
  "ABCDEFGHIJKLMNOPQRSTUVWXYZabcdefghijklmnopqrstuvwxyz0123456789+/".toList.getD n 'A'

/-- Go `base64.StdEncoding` encoding, with padding. -/
def b64encode : List Nat → Text
  | [] => []
  | [a] => [b64char (a / 4), b64char (a % 4 * 16), '=', '=']
  | [a, b] => [b64char (a / 4), b64char (a % 4 * 16 + b / 16), b64char (b % 16 * 4), '=']
  | a :: b :: c :: rest =>
    b64char (a / 4) :: b64char (a % 4 * 16 + b / 16) :: b64char (b % 16 * 4 + c / 64) ::
      b64char (c % 64) :: b64encode rest

/-- Library function `parseString`: a big-endian `uint32` length and that many
bytes. -/
def parseString : List Nat → Option (List Nat × List Nat)
  | a :: b :: c :: d :: rest =>
    let n := ((a * 256 + b) * 256 + c) * 256 + d
    if rest.length < n then none else some (rest.take n, rest.drop n)
  | _ => none

/-- Wire encoding of a string: its length as a big-endian `uint32`, then its
bytes. -/
def wireString (s : List Nat) : List Nat :=
  let n := s.length
  [n / 16777216 % 256, n / 65536 % 256, n / 256 % 256, n % 256] ++ s

/-- The algorithm name `ssh-ed25519` as bytes. -/
def algoED25519 : List Nat := "ssh-ed25519".toList.map Char.toNat

/-- Library function `ssh.ParsePublicKey`, for a library that knows the
algorithm `ssh-ed25519` only: the algorithm name, the 32 key bytes, and no
trailing bytes.  A key is its 32 bytes (`type ed25519PublicKey`). -/
def ParsePublicKey (inp : List Nat) : Option (List Nat) :=
  match parseString inp with
  | none => none
  | some (algo, inp) =>
    if algo = algoED25519 then
      match parseString inp with
      | none => none
      | some (keyBytes, rest) =>
        if keyBytes.length ≠ 32 then none
        else if rest.length > 0 then none
        else some keyBytes
    else none

/-- The key codec of a library that knows `ssh-ed25519` only:
`MarshalAuthorizedKey` writes the type, a space, the base64 of the wire form
and a line feed. -/
def ed25519Codec : KeyCodec (List Nat) where
  decode := fun base64Key =>
    match b64decode base64Key with
    | none => none
    | some key => ParsePublicKey key
  MarshalAuthorizedKey := fun key =>
    "ssh-ed25519".toList ++ [' '] ++
      b64encode (wireString algoED25519 ++ wireString key) ++ ['\n']

/-- The library restricted to `ssh-ed25519` keys. -/
def ed25519 : SSH (List Nat) := xcrypto (xcryptoReader ed25519Codec)

/-! ## The command: `getRemoteKeys`, `getLocalKeys`, `main` -/

/-- Split a path at its separators `/`. -/
def splitPath : Text → List Text
  | [] => [[]]
  | c :: cs =>
    match splitPath cs with
    | [] => [[]]
    | w :: ws => if c = '/' then [] :: w :: ws else (c :: w) :: ws

/-- The elements that Go `filepath.Clean` keeps, most recent first: empty
elements and `.` are dropped, `..` removes the element before it, is dropped at
the root and is kept at the front of a relative path. -/
def cleanElems (rooted : Bool) : List Text → List Text → List Text
  | [], out => out
  | e :: es, out =>
    if e = [] ∨ e = ".".toList then cleanElems rooted es out
    else if e = "..".toList then
      match out with
      | [] => if rooted then cleanElems rooted es [] else cleanElems rooted es [e]
      | o :: os =>
        if o = "..".toList then cleanElems rooted es (e :: o :: os)
        else cleanElems rooted es os
    else cleanElems rooted es (e :: out)

/-- Go `filepath.Clean` on a system whose separator is `/`. -/
def Clean (path : Text) : Text :=
  let rooted := path.head? == some '/'
  let out := (cleanElems rooted (splitPath path) []).reverse
  if rooted then '/' :: "/".toList.intercalate out
  else if out = [] then ".".toList
  else "/".toList.intercalate out

/-- Go `filepath.Join`: the elements from the first non-empty one on, joined by
the separator and cleaned. -/
def filepathJoin (elem : List Text) : Text :=
  match elem.dropWhile (· = []) with
  | [] => []
  | rest => Clean ("/".toList.intercalate rest)

/-- Go `getDefaultSSHPath()`; `home` is the result of `os.UserHomeDir()`. -/
def getDefaultSSHPath (home : Text) : Text :=
  filepathJoin [home, ".ssh".toList, "authorized_keys".toList]

/-- The command-line flags `-o`, `-w` and `-l`. -/
structure Flags where
  output : Text
  noWarn : Bool
  loadLocal : Text
deriving DecidableEq, Repr

/-- What the command reads from its surroundings: the home directory, the
answer to an HTTP request (`url.Parse`, `http.Get` and `io.ReadAll` of
`httpSource.Get`), the contents of a file, the error of
`os.OpenFile(path, O_WRONLY|O_TRUNC, 0600)` if any, and the order in which the
map of the `n`-th `mergeKeys` call is enumerated. -/
structure Env (Key : Type) where
  home : Text
  httpGet : Text → Except Text Text
  ReadFile : Text → Except Text Text
  OpenFile : Text → Option Text
  range : Nat → IdMap Key → IdMap Key

/-- Go `SourceTable`: the URL that `httpSource.Get(id)` requests for each
source name. -/
def SourceTable (srcName : Text) : Option (Text → Text) :=
  if srcName = "gh".toList then some (fun id => "https://github.com/".toList ++ id ++ ".keys".toList)
  else if srcName = "gl".toList then
    some (fun id => "https://gitlab.com/".toList ++ id ++ ".keys".toList)
  else if srcName = "lp".toList then
    some (fun id => "https://launchpad.net/~".toList ++ id ++ "/+sshkeys".toList)
  else none

/-- Go `len` of a byte string: the number of bytes of its UTF-8 encoding. -/
def byteLen (s : Text) : Nat := (s.map Char.utf8Size).sum

/-- The loop `for _, e := range remoteKeys.List { e.comment = ... }`: the
entries are shared by the list and the map. -/
def stampComment (comment : Text) (kt : KeyTable Key) : KeyTable Key :=
  { List := kt.List.map (fun e => { e with comment := comment }),
    m := kt.m.map (fun p => (p.1, { p.2 with comment := comment })) }

/-- Result of `getRemoteKeys`: the returned table (`none` for `nil`), the
returned error, whether `flag.PrintDefaults()` was called, and the URLs
requested, in order. -/
structure RemoteResult (Key : Type) where
  kt : Option (KeyTable Key)
  err : Option Text
  usage : Bool
  fetched : List Text
deriving DecidableEq, Repr

/-- The loop of `getRemoteKeys` over the remaining arguments; `n` counts the
arguments already visited, `kt` is the aggregate table. -/
def getRemoteKeysLoop (lib : SSH Key) (env : Env Key) :
    List Text → Nat → KeyTable Key → List Text → RemoteResult Key
  | [], _, kt, fetched => { kt := some kt, err := none, usage := false, fetched := fetched }
  | arg :: more, n, kt, fetched =>
    if !arg.contains ':' then
      { kt := some kt, err := none, usage := true, fetched := fetched }
    else
      let srcName := arg.takeWhile (· != ':')
      let id := (arg.dropWhile (· != ':')).drop 1
      match SourceTable srcName with
      | none => { kt := some kt, err := none, usage := true, fetched := fetched }
      | some src =>
        match env.httpGet (src id) with
        | Except.error err =>
          { kt := none, err := some (srcName ++ "(".toList ++ id ++ "):".toList ++ err),
            usage := false, fetched := fetched ++ [src id] }
        | Except.ok data =>
          if byteLen data < byteLen "ssh-rsa".toList then
            getRemoteKeysLoop lib env more (n + 1) kt (fetched ++ [src id])
          else
            match parseKeys lib newKt data with
            | (_, some err) =>
              { kt := none, err := some err, usage := false, fetched := fetched ++ [src id] }
            | (remoteKeys, none) =>
              let remoteKeys :=
                stampComment ("#ssh-get-id ".toList ++ srcName ++ ":".toList ++ id) remoteKeys
              getRemoteKeysLoop lib env more (n + 1)
                (mergeKeys lib (env.range (n + 1)) kt remoteKeys false).1 (fetched ++ [src id])

/-- Go `getRemoteKeys()`, for the arguments `flag.Args()`. -/
def getRemoteKeys (lib : SSH Key) (env : Env Key) (args : List Text) : RemoteResult Key :=
  getRemoteKeysLoop lib env args 0 newKt []

/-- Go `getLocalKeys()`: the returned table (`none` for `nil`) and error.
`path` is `none` in the case `"NONE"` of the switch, which returns the empty
table. -/
def getLocalKeys (lib : SSH Key) (env : Env Key) (flags : Flags) :
    Option (KeyTable Key) × Option Text :=
  let path : Option Text :=
    if flags.loadLocal = [] then some (getDefaultSSHPath env.home)
    else if flags.loadLocal = "NONE".toList then none
    else some flags.loadLocal
  match path with
  | none => (some newKt, none)
  | some path =>
    match env.ReadFile path with
    | Except.error err => (none, some err)
    | Except.ok data =>
      let r := parseKeys lib newKt data
      (some r.1, r.2)

/-- Where `main` writes the keys. -/
inductive Target where
  | stdout : Target
  | file : Text → Target
deriving DecidableEq, Repr

/-- The choice of `target` in `main`, lines 84-95: standard output for `-`,
otherwise the file that `os.OpenFile(*output, ...)` names. -/
def outputTarget (output : Text) : Target :=
  if output = "-".toList then Target.stdout else Target.file output

/-- Outcome of `main`: `log.Fatal` with a message, or the lines printed to the
target; both with the warnings logged before. -/
inductive MainResult where
  | fatal : Text → List Text → MainResult
  | wrote : Target → List Text → List Text → MainResult
deriving DecidableEq, Repr

/-- Go `main()`.  The lines are those that the loop over `localKeys.List`
prints with `fmt.Fprintln(target, e)`; an error of a write, which would end
the run in `log.Fatal`, is left out.  `getRemoteKeys` and `getLocalKeys`
return a nil table only together with an error; the two branches for a nil
table without error are there for totality. -/
def main (lib : SSH Key) (env : Env Key) (flags : Flags) (args : List Text) : MainResult :=
  match getRemoteKeys lib env args with
  | { kt := _, err := some err, .. } => MainResult.fatal err []
  | { kt := none, err := none, .. } => MainResult.fatal [] []
  | { kt := some remoteKeys, err := none, .. } =>
    match getLocalKeys lib env flags with
    | (_, some err) => MainResult.fatal err []
    | (none, none) => MainResult.fatal [] []
    | (some localKeys, none) =>
      let merged := mergeKeys lib (env.range 0) localKeys remoteKeys (!flags.noWarn)
      let lines := merged.1.List.map (Entry.String lib)
      match outputTarget flags.output with
      | Target.stdout => MainResult.wrote Target.stdout lines merged.2
      | Target.file path =>
        match env.OpenFile path with
        | some err => MainResult.fatal err merged.2
        | none => MainResult.wrote (Target.file path) lines merged.2

/-! ## Invariants, parsed lines and sample data used in the statements -/

/-- The pairs of an enumeration whose identity the receiver lacks. -/
def absentFrom (m : IdMap Key) (order : IdMap Key) : IdMap Key :=
  order.filter (fun p => (mapGet m p.1).isNone)

/-- The warnings of a merge: one per enumerated pair whose identity the
receiver has, naming the entry of the receiver. -/
def duplicateWarnings (lib : SSH Key) (m : IdMap Key) (order : IdMap Key) : List Text :=
  order.filterMap (fun p =>
    (mapGet m p.1).map (fun ee => "Already authorized:".toList ++ Entry.String lib ee))

/-- Table invariant: the identity map binds exactly the entries of the list,
each under its canonical identity, and no identity occurs twice. -/
def Consistent (lib : SSH Key) (kt : KeyTable Key) : Prop :=
  kt.m = kt.List.map (fun e => (identity lib e, e)) ∧ (kt.List.map (identity lib)).Nodup

/-- Tables that `newKt`, `parseKeys` and `mergeKeys` can produce; the argument
of a merge is such a table and `range` enumerates its map. -/
inductive Reachable (lib : SSH Key) : KeyTable Key → Prop
  | newKt : Reachable lib newKt
  | parseKeys (kt : KeyTable Key) (data : Text) :
      Reachable lib kt → Reachable lib (parseKeys lib kt data).1
  | mergeKeys (kt rk : KeyTable Key) (range : IdMap Key → IdMap Key) (warn : Bool) :
      Reachable lib kt → Reachable lib rk → (range rk.m).Perm rk.m →
      Reachable lib (mergeKeys lib range kt rk warn).1

instance instDecidableConsistent [DecidableEq Key] (lib : SSH Key) (kt : KeyTable Key) :
    Decidable (Consistent lib kt) :=
  inferInstanceAs (Decidable (_ ∧ _))

/-- Key bytes `0, 1, ..., 31`. -/
def keyK1 : List Nat := List.range 32

/-- Key bytes `100, 101, ..., 131`. -/
def keyK2 : List Nat := (List.range 32).map (· + 100)

/-- The authorized-keys field pair of `keyK1`. -/
def textK1 : Text :=
  "ssh-ed25519 AAAAC3NzaC1lZDI1NTE5AAAAIAABAgMEBQYHCAkKCwwNDg8QERITFBUWFxgZGhscHR4f".toList

/-- The authorized-keys field pair of `keyK2`. -/
def textK2 : Text :=
  "ssh-ed25519 AAAAC3NzaC1lZDI1NTE5AAAAIGRlZmdoaWprbG1ub3BxcnN0dXZ3eHl6e3x9fn+AgYKD".toList

/-- A local file with the key K1 and the comment `laptop`. -/
def localFile : Text := textK1 ++ " laptop\n".toList

/-- The local table of the scenario: K1 with the comment `laptop`. -/
def localTable : KeyTable (List Nat) := (parseKeys ed25519 newKt localFile).1

/-- What the source `gh:alice` returns: K1 and K2, with comments of their own. -/
def remoteBody : Text := textK1 ++ " alice@desk\n".toList ++ textK2 ++ " alice@work\n".toList

/-- The remote table as parsed, before the comments are stamped. -/
def remoteParsed : KeyTable (List Nat) := (parseKeys ed25519 newKt remoteBody).1

/-- The remote table of the scenario, tagged as `getRemoteKeys` does. -/
def remoteTable : KeyTable (List Nat) :=
  stampComment "#ssh-get-id gh:alice".toList remoteParsed

/-- The table of the witness of C3: the local table after a failing parse and
a merge of the parsed remote table. -/
def reachedTable : KeyTable (List Nat) :=
  (mergeKeys ed25519 List.reverse
    (parseKeys ed25519 localTable (textK1 ++ " again\nnot a key\n".toList)).1
    remoteParsed true).1

/-- The entries that the successive `ssh.ParseAuthorizedKey` calls of one
`parseKeys` loop return, in order, up to the first failing call or the end of
the buffer. -/
def parsedLoop (lib : SSH Key) : Nat → Text → List (Entry Key)
  | 0, _ => []
  | fuel + 1, data =>
    if data.length > 0 then
      match lib.ParseAuthorizedKey data with
      | Except.error _ => []
      | Except.ok (key, comment, options, rest) =>
        { key := key, comment := comment, options := options } :: parsedLoop lib fuel rest
    else []

/-- The entries parsed from a buffer before `parseKeys` stops. -/
def parsedEntries (lib : SSH Key) (data : Text) : List (Entry Key) :=
  parsedLoop lib data.length data

/-- Lines 168-177 applied to a sequence of parsed entries. -/
def insertAll (lib : SSH Key) (kt : KeyTable Key) (es : List (Entry Key)) : KeyTable Key :=
  es.foldl (fun kt e => parseKeysStep lib kt e.key e.comment e.options) kt

/-- What the loop of `ssh.ParseAuthorizedKey` finds in a buffer: the first key
with the rest of the buffer, or `none`. -/
def firstKey (rd : LineReader Key) (inp : Text) : Option (Key × Text × List Text × Text) :=
  ParseAuthorizedKeyLoop rd inp.length inp

/-- A prefix of a buffer that ends at a line boundary: empty, or closed by a
line feed. -/
def LineBoundary (pre : Text) : Prop := pre = [] ∨ pre.getLast? = some '\n'

/-- The lines of a buffer, as the loop of `ssh.ParseAuthorizedKey` visits them:
the text between line feeds, without an empty line after a closing line feed. -/
def splitLines : Text → List Text
  | [] => []
  | c :: cs =>
    if c = '\n' then [] :: splitLines cs
    else
      match splitLines cs with
      | [] => [[c]]
      | l :: ls => (c :: l) :: ls

/-- The result of `getRemoteKeys` when `flag.PrintDefaults()` is called on top
of an error-free run. -/
def withUsage (r : RemoteResult Key) : RemoteResult Key :=
  match r.err with
  | some _ => r
  | none => { r with usage := true }

/-- An environment without network: every request fails. -/
def offlineEnv : Env (List Nat) where
  home := "/home/alice".toList
  httpGet := fun _ => Except.error "no route to host".toList
  ReadFile := fun _ => Except.ok localFile
  OpenFile := fun _ => none
  range := fun _ m => m

/-- An environment in which `gh:alice` has the keys K1 and K2 and the local
file holds K1; any other request fails. -/
def aliceEnv : Env (List Nat) where
  home := "/home/alice".toList
  httpGet := fun url =>
    if url = "https://github.com/alice.keys".toList then Except.ok remoteBody
    else Except.error "no route to host".toList
  ReadFile := fun _ => Except.ok localFile
  OpenFile := fun _ => none
  range := fun _ m => m.reverse

/-! # Theorems -/

/-! ## Lemmas on the identity map -/

theorem mapGet_eq_none_iff (m : IdMap Key) (k : Text) :
    mapGet m k = none ↔ k ∉ m.map Prod.fst := by
  induction m with
  | nil => simp [mapGet]
  | cons p rest ih =>
    obtain ⟨k', v⟩ := p
    by_cases h : k' = k
    · subst h
      simp only [mapGet, if_true, List.map_cons, List.mem_cons, true_or, not_true_eq_false]
      exact ⟨fun hc => Option.noConfusion hc, False.elim⟩
    · simp only [mapGet, h, if_false, ih, List.map_cons, List.mem_cons, not_or]
      exact ⟨fun hc => ⟨Ne.symm h, hc⟩, fun hc => hc.2⟩

theorem mapSet_of_absent (m : IdMap Key) (k : Text) (v : Entry Key)
    (h : mapGet m k = none) : mapSet m k v = m ++ [(k, v)] := by
  induction m with
  | nil => simp [mapSet]
  | cons p rest ih =>
    obtain ⟨k', v'⟩ := p
    by_cases hk : k' = k
    · simp [mapGet, hk] at h
    · simp only [mapGet, hk, if_false] at h
      simp [mapSet, hk, ih h]

theorem mapGet_append_other (m : IdMap Key) (k hk : Text) (v : Entry Key) (h : hk ≠ k) :
    mapGet (m ++ [(hk, v)]) k = mapGet m k := by
  induction m with
  | nil => simp [mapGet, h]
  | cons p rest ih =>
    obtain ⟨k', v'⟩ := p
    by_cases hk' : k' = k
    · simp [mapGet, hk']
    · simp [mapGet, hk', ih]

theorem mapGet_mem (m : IdMap Key) (k : Text) (v : Entry Key) (h : mapGet m k = some v) :
    (k, v) ∈ m := by
  induction m with
  | nil => simp [mapGet] at h
  | cons p rest ih =>
    obtain ⟨k', v'⟩ := p
    by_cases hk : k' = k
    · simp [mapGet, hk] at h
      simp [hk, h]
    · simp only [mapGet, hk, if_false] at h
      exact List.mem_cons_of_mem _ (ih h)

/-! ## What `mergeKeys` computes -/

theorem absentFrom_append_new (m more : IdMap Key) (hk : Text) (e : Entry Key)
    (h : hk ∉ more.map Prod.fst) :
    absentFrom (m ++ [(hk, e)]) more = absentFrom m more := by
  unfold absentFrom
  apply List.filter_congr
  intro p hp
  have : hk ≠ p.1 := fun heq => h (heq ▸ List.mem_map_of_mem Prod.fst hp)
  rw [mapGet_append_other m p.1 hk e this]

theorem duplicateWarnings_append_new (lib : SSH Key) (m more : IdMap Key) (hk : Text)
    (e : Entry Key) (h : hk ∉ more.map Prod.fst) :
    duplicateWarnings lib (m ++ [(hk, e)]) more = duplicateWarnings lib m more := by
  unfold duplicateWarnings
  induction more with
  | nil => rfl
  | cons p rest ih =>
    simp only [List.map_cons, List.mem_cons, not_or] at h
    rw [List.filterMap_cons, List.filterMap_cons, mapGet_append_other m p.1 hk e h.1, ih h.2]

theorem mergeKeysLoop_spec (lib : SSH Key) (warn : Bool) (order : IdMap Key) :
    ∀ (kt : KeyTable Key) (log : List Text), (order.map Prod.fst).Nodup →
      mergeKeysLoop lib warn order kt log =
        ({ List := kt.List ++ (absentFrom kt.m order).map Prod.snd,
           m := kt.m ++ absentFrom kt.m order },
         log ++ (if warn then duplicateWarnings lib kt.m order else [])) := by
  induction order with
  | nil => intro kt log _; cases warn <;> simp [mergeKeysLoop, absentFrom, duplicateWarnings]
  | cons p more ih =>
    intro kt log hnd
    obtain ⟨hk, e⟩ := p
    simp only [List.map_cons, List.nodup_cons] at hnd
    obtain ⟨hnew, hnd⟩ := hnd
    unfold mergeKeysLoop
    cases hget : mapGet kt.m hk with
    | some ee =>
      simp only
      rw [ih kt _ hnd]
      cases warn <;>
        simp [absentFrom, duplicateWarnings, List.filter_cons, List.filterMap_cons, hget]
    | none =>
      simp only
      rw [ih _ log hnd, mapSet_of_absent kt.m hk e hget]
      simp only [absentFrom_append_new kt.m more hk e hnew,
        duplicateWarnings_append_new lib kt.m more hk e hnew]
      cases warn <;>
        simp [absentFrom, duplicateWarnings, List.filter_cons, List.filterMap_cons, hget]

/-! ## The table invariant -/

theorem Consistent.keys (lib : SSH Key) (kt : KeyTable Key) (h : Consistent lib kt) :
    kt.m.map Prod.fst = kt.List.map (identity lib) := by
  rw [h.1, List.map_map]; rfl

theorem Consistent.values (lib : SSH Key) (kt : KeyTable Key) (h : Consistent lib kt) :
    kt.m.map Prod.snd = kt.List := by
  rw [h.1, List.map_map]; simp [Function.comp_def]

theorem Consistent.key_eq (lib : SSH Key) (kt : KeyTable Key) (h : Consistent lib kt)
    (p : Text × Entry Key) (hp : p ∈ kt.m) : p.1 = identity lib p.2 ∧ p.2 ∈ kt.List := by
  rw [h.1, List.mem_map] at hp
  obtain ⟨e, he, rfl⟩ := hp
  exact ⟨rfl, he⟩

theorem consistent_newKt (lib : SSH Key) : Consistent lib (newKt : KeyTable Key) := by
  simp [Consistent, newKt]

theorem consistent_append (lib : SSH Key) (kt : KeyTable Key) (h : Consistent lib kt)
    (add : IdMap Key) (hkey : ∀ p ∈ add, p.1 = identity lib p.2)
    (hnd : (add.map Prod.fst).Nodup) (hnew : ∀ p ∈ add, mapGet kt.m p.1 = none) :
    Consistent lib { List := kt.List ++ add.map Prod.snd, m := kt.m ++ add } := by
  have hadd : add.map (fun p => (identity lib p.2, p.2)) = add := by
    conv_rhs => rw [← List.map_id add]
    apply List.map_congr_left
    intro p hp
    rw [← hkey p hp]; rfl
  have hids : (add.map Prod.snd).map (identity lib) = add.map Prod.fst := by
    rw [List.map_map]
    apply List.map_congr_left
    intro p hp
    simp [Function.comp_def, hkey p hp]
  constructor
  · simp only [List.map_append, List.map_map, Function.comp_def]
    rw [← h.1, hadd]
  · rw [List.map_append, hids, List.nodup_append]
    refine ⟨h.2, hnd, ?_⟩
    intro a ha hb
    rw [List.mem_map] at hb
    obtain ⟨p, hp, rfl⟩ := hb
    have := (mapGet_eq_none_iff kt.m p.1).1 (hnew p hp)
    rw [Consistent.keys lib kt h] at this
    exact this ha

theorem parseKeysStep_present (lib : SSH Key) (kt : KeyTable Key) (key : Key)
    (comment : Text) (options : List Text) (ee : Entry Key)
    (h : mapGet kt.m (lib.MarshalAuthorizedKey key) = some ee) :
    parseKeysStep lib kt key comment options = kt := by
  unfold parseKeysStep
  simp only [h]

theorem parseKeysStep_absent (lib : SSH Key) (kt : KeyTable Key) (key : Key)
    (comment : Text) (options : List Text)
    (h : mapGet kt.m (lib.MarshalAuthorizedKey key) = none) :
    parseKeysStep lib kt key comment options =
      { List := kt.List ++ [{ key := key, comment := comment, options := options }],
        m := kt.m ++
          [(lib.MarshalAuthorizedKey key,
            { key := key, comment := comment, options := options })] } := by
  unfold parseKeysStep
  simp only [h]
  rw [mapSet_of_absent _ _ _ h]

theorem parseKeysStep_consistent (lib : SSH Key) (kt : KeyTable Key) (h : Consistent lib kt)
    (key : Key) (comment : Text) (options : List Text) :
    Consistent lib (parseKeysStep lib kt key comment options) := by
  cases hget : mapGet kt.m (lib.MarshalAuthorizedKey key) with
  | some ee => rw [parseKeysStep_present lib kt key comment options ee hget]; exact h
  | none =>
    rw [parseKeysStep_absent lib kt key comment options hget]
    exact consistent_append lib kt h
      [(lib.MarshalAuthorizedKey key, { key := key, comment := comment, options := options })]
      (by intro p hp; simp only [List.mem_singleton] at hp; subst hp; rfl)
      (by simp)
      (by intro p hp; simp only [List.mem_singleton] at hp; subst hp; exact hget)

theorem parseKeysLoop_consistent (lib : SSH Key) (fuel : Nat) :
    ∀ (kt : KeyTable Key) (data : Text), Consistent lib kt →
      Consistent lib (parseKeysLoop lib fuel kt data).1 := by
  induction fuel with
  | zero => intro kt data h; exact h
  | succ n ih =>
    intro kt data h
    unfold parseKeysLoop
    split
    · split
      · exact h
      · exact ih _ _ (parseKeysStep_consistent lib kt h _ _ _)
    · exact h

theorem absentFrom_sublist (m order : IdMap Key) : (absentFrom m order).Sublist order :=
  List.filter_sublist order

theorem mem_absentFrom (m order : IdMap Key) (p : Text × Entry Key) :
    p ∈ absentFrom m order ↔ p ∈ order ∧ mapGet m p.1 = none := by
  simp [absentFrom, List.mem_filter, Option.isNone_iff_eq_none]

theorem mergeKeys_eq (lib : SSH Key) (range : IdMap Key → IdMap Key) (A B : KeyTable Key)
    (warn : Bool) (hB : Consistent lib B) (hr : (range B.m).Perm B.m) :
    mergeKeys lib range A B warn =
      ({ List := A.List ++ (absentFrom A.m (range B.m)).map Prod.snd,
         m := A.m ++ absentFrom A.m (range B.m) },
       if warn then duplicateWarnings lib A.m (range B.m) else []) := by
  have hnd : ((range B.m).map Prod.fst).Nodup := by
    have hp : ((range B.m).map Prod.fst).Perm (B.m.map Prod.fst) := hr.map _
    rw [hp.nodup_iff, Consistent.keys lib B hB]
    exact hB.2
  unfold mergeKeys
  rw [mergeKeysLoop_spec lib warn (range B.m) A [] hnd]
  simp

theorem mergeKeys_consistent (lib : SSH Key) (range : IdMap Key → IdMap Key)
    (A B : KeyTable Key) (warn : Bool) (hA : Consistent lib A) (hB : Consistent lib B)
    (hr : (range B.m).Perm B.m) : Consistent lib (mergeKeys lib range A B warn).1 := by
  rw [mergeKeys_eq lib range A B warn hB hr]
  apply consistent_append lib A hA
  · intro p hp
    have hp1 := ((mem_absentFrom _ _ _).1 hp).1
    exact (Consistent.key_eq lib B hB p (hr.subset hp1)).1
  · have hp : ((range B.m).map Prod.fst).Perm (B.m.map Prod.fst) := hr.map _
    have hnd : ((range B.m).map Prod.fst).Nodup := by
      rw [hp.nodup_iff, Consistent.keys lib B hB]; exact hB.2
    exact hnd.sublist ((absentFrom_sublist A.m (range B.m)).map _)
  · intro p hp
    exact ((mem_absentFrom _ _ _).1 hp).2

/-! ## Merging -/

theorem reachable_consistent (lib : SSH Key) (kt : KeyTable Key) (h : Reachable lib kt) :
    Consistent lib kt := by
  induction h with
  | newKt => exact consistent_newKt lib
  | parseKeys kt data _ ih => exact parseKeysLoop_consistent lib _ kt data ih
  | mergeKeys kt rk range warn _ _ hr ih1 ih2 =>
    exact mergeKeys_consistent lib range kt rk warn ih1 ih2 hr

theorem mapGet_isSome_iff (lib : SSH Key) (A : KeyTable Key) (hA : Consistent lib A)
    (k : Text) : (mapGet A.m k).isSome = true ↔ k ∈ A.List.map (identity lib) := by
  rw [← Consistent.keys lib A hA]
  have := mapGet_eq_none_iff A.m k
  cases h : mapGet A.m k with
  | none =>
    rw [h] at this
    have hn := this.1 rfl
    exact ⟨fun hc => Bool.noConfusion hc, fun hc => absurd hc hn⟩
  | some v =>
    rw [h] at this
    simp only [Option.isSome_some, true_iff]
    by_contra hc
    exact Option.noConfusion (this.2 hc)

theorem appended_of_merge (lib : SSH Key) (range : IdMap Key → IdMap Key) (A B : KeyTable Key)
    (hA : Consistent lib A) (hB : Consistent lib B) (hr : (range B.m).Perm B.m)
    (e : Entry Key) (he : e ∈ (absentFrom A.m (range B.m)).map Prod.snd) :
    e ∈ B.List ∧ identity lib e ∉ A.List.map (identity lib) := by
  rw [List.mem_map] at he
  obtain ⟨p, hp, rfl⟩ := he
  obtain ⟨hp1, hp2⟩ := (mem_absentFrom _ _ _).1 hp
  obtain ⟨hk, hl⟩ := Consistent.key_eq lib B hB p (hr.subset hp1)
  refine ⟨hl, ?_⟩
  rw [← hk, ← Consistent.keys lib A hA]
  exact (mapGet_eq_none_iff A.m p.1).1 hp2

/-! ## Claims on `mergeKeys` -/

/-- C7. Merge only adds: the receiver's list before the merge is a prefix of
its list after it, every appended entry is an entry of the other table whose
canonical identity the receiver lacked, and merging an empty table leaves the
receiver unchanged (list and identity map). -/
theorem mergeKeys_only_adds (lib : SSH Key) (range : IdMap Key → IdMap Key)
    (A B : KeyTable Key) (warn : Bool) (hA : Consistent lib A) (hB : Consistent lib B)
    (hr : (range B.m).Perm B.m) :
    A.List <+: (mergeKeys lib range A B warn).1.List ∧
    (∀ e ∈ (mergeKeys lib range A B warn).1.List.drop A.List.length,
      e ∈ B.List ∧ identity lib e ∉ A.List.map (identity lib)) ∧
    (B.List = [] → (mergeKeys lib range A B warn).1 = A) := by
  rw [mergeKeys_eq lib range A B warn hB hr]
  refine ⟨List.prefix_append _ _, ?_, ?_⟩
  · intro e he
    simp only [List.drop_left] at he
    exact appended_of_merge lib range A B hA hB hr e he
  · intro hempty
    have hm : B.m = [] := by rw [hB.1, hempty]; rfl
    have hnil : range B.m = [] := by
      apply List.Perm.eq_nil
      rw [hm] at hr ⊢
      exact hr
    rw [hnil]
    cases A
    simp [absentFrom]

/-- Witness of C7 on the scenario tables. -/
theorem mergeKeys_only_adds_witness :
    Consistent ed25519 localTable ∧ Consistent ed25519 remoteTable ∧
    (List.reverse remoteTable.m).Perm remoteTable.m ∧
    localTable.List <+: (mergeKeys ed25519 List.reverse localTable remoteTable true).1.List ∧
    (∀ e ∈ (mergeKeys ed25519 List.reverse localTable remoteTable true).1.List.drop
        localTable.List.length,
      e ∈ remoteTable.List ∧
        identity ed25519 e ∉ localTable.List.map (identity ed25519)) ∧
    (remoteTable.List = [] →
      (mergeKeys ed25519 List.reverse localTable remoteTable true).1 = localTable) :=
  ⟨by decide, by decide, List.reverse_perm _,
    mergeKeys_only_adds ed25519 List.reverse localTable remoteTable true
      (by decide) (by decide) (List.reverse_perm _)⟩

theorem duplicateWarnings_perm (lib : SSH Key) (range : IdMap Key → IdMap Key)
    (A B : KeyTable Key) (hB : Consistent lib B) (hr : (range B.m).Perm B.m) :
    (duplicateWarnings lib A.m (range B.m)).Perm
      (B.List.filterMap (fun e => (mapGet A.m (identity lib e)).map
        (fun ee => "Already authorized:".toList ++ Entry.String lib ee))) := by
  unfold duplicateWarnings
  refine (hr.filterMap _).trans ?_
  rw [hB.1, List.filterMap_map]
  exact List.Perm.refl _

theorem length_filterMap_eq_filter {α β : Type} (f : α → Option β) (l : List α) :
    (l.filterMap f).length = (l.filter (fun a => (f a).isSome)).length := by
  induction l with
  | nil => rfl
  | cons a l ih =>
    cases h : f a with
    | none => simp [List.filterMap_cons, List.filter_cons, h, ih]
    | some b => simp [List.filterMap_cons, List.filter_cons, h, ih]

theorem mapGet_consistent (lib : SSH Key) (A : KeyTable Key) (hA : Consistent lib A)
    (k : Text) (ee : Entry Key) (h : mapGet A.m k = some ee) :
    ee ∈ A.List ∧ identity lib ee = k := by
  have := Consistent.key_eq lib A hA (k, ee) (mapGet_mem A.m k ee h)
  exact ⟨this.2, this.1.symm⟩

/-- C6. Duplicates in a merge: an entry of the other table whose canonical
identity the receiver already has is not appended, and the entries of the
result with that identity are the receiver's own; with `warn` there is exactly
one warning per such entry, `Already authorized:` followed by the
serialization of the receiver's entry for that identity, and without `warn`
there is none. -/
theorem mergeKeys_duplicates (lib : SSH Key) (range : IdMap Key → IdMap Key)
    (A B : KeyTable Key) (warn : Bool) (hA : Consistent lib A) (hB : Consistent lib B)
    (hr : (range B.m).Perm B.m) :
    (∀ e ∈ B.List, identity lib e ∈ A.List.map (identity lib) →
      e ∉ (mergeKeys lib range A B warn).1.List.drop A.List.length ∧
      (mergeKeys lib range A B warn).1.List.filter (fun x => identity lib x = identity lib e) =
        A.List.filter (fun x => identity lib x = identity lib e) ∧
      ∃ ee, mapGet A.m (identity lib e) = some ee ∧ ee ∈ A.List ∧
        identity lib ee = identity lib e) ∧
    (warn = true →
      (mergeKeys lib range A B warn).2.Perm
        (B.List.filterMap (fun e => (mapGet A.m (identity lib e)).map
          (fun ee => "Already authorized:".toList ++ Entry.String lib ee))) ∧
      (mergeKeys lib range A B warn).2.length =
        (B.List.filter (fun e => identity lib e ∈ A.List.map (identity lib))).length) ∧
    (warn = false → (mergeKeys lib range A B warn).2 = []) := by
  rw [mergeKeys_eq lib range A B warn hB hr]
  refine ⟨?_, ?_, ?_⟩
  · intro e _ hdup
    have hnot : ∀ x ∈ (absentFrom A.m (range B.m)).map Prod.snd,
        identity lib x ≠ identity lib e := by
      intro x hx heq
      exact (appended_of_merge lib range A B hA hB hr x hx).2 (heq ▸ hdup)
    refine ⟨?_, ?_, ?_⟩
    · simp only [List.drop_left]
      intro he
      exact hnot e he rfl
    · simp only [List.filter_append]
      have : ((absentFrom A.m (range B.m)).map Prod.snd).filter
          (fun x => identity lib x = identity lib e) = [] := by
        rw [List.filter_eq_nil_iff]
        intro x hx
        simpa using hnot x hx
      rw [this, List.append_nil]
    · have hs := (mapGet_isSome_iff lib A hA (identity lib e)).2 hdup
      obtain ⟨ee, hee⟩ := Option.isSome_iff_exists.1 hs
      exact ⟨ee, hee, mapGet_consistent lib A hA _ ee hee⟩
  · intro hw
    subst hw
    simp only [if_true]
    have hperm := duplicateWarnings_perm lib range A B hB hr
    refine ⟨hperm, ?_⟩
    rw [hperm.length_eq, length_filterMap_eq_filter]
    congr 1
    apply List.filter_congr
    intro e _
    have hiff := mapGet_isSome_iff lib A hA (identity lib e)
    cases hg : mapGet A.m (identity lib e) with
    | none =>
      rw [hg] at hiff
      have hn : identity lib e ∉ A.List.map (identity lib) :=
        fun hc => Bool.noConfusion (hiff.2 hc)
      simp only [Option.map_none', Option.isSome_none]
      exact (decide_eq_false hn).symm
    | some ee =>
      rw [hg] at hiff
      simp only [Option.map_some', Option.isSome_some]
      exact (decide_eq_true (hiff.1 rfl)).symm
  · intro hw
    subst hw
    rfl

/-- Witness of C6, the scenario of the specification: the local table holds K1
with the comment `laptop`, the remote table K1 and K2 tagged
`#ssh-get-id gh:alice`.  The output is K1 `laptop`, K2 `#ssh-get-id gh:alice`
and there is one warning, naming K1 `laptop`. -/
theorem mergeKeys_duplicates_witness :
    Consistent ed25519 localTable ∧ Consistent ed25519 remoteTable ∧
    (List.reverse remoteTable.m).Perm remoteTable.m ∧
    (mergeKeys ed25519 List.reverse localTable remoteTable true).1.List =
      [{ key := keyK1, comment := "laptop".toList, options := [] },
       { key := keyK2, comment := "#ssh-get-id gh:alice".toList, options := [] }] ∧
    (mergeKeys ed25519 List.reverse localTable remoteTable true).2 =
      ["Already authorized:".toList ++ textK1 ++ " laptop".toList] ∧
    (mergeKeys ed25519 List.reverse localTable remoteTable false).2 = [] ∧
    ((mergeKeys ed25519 List.reverse localTable remoteTable true).2.Perm
        (remoteTable.List.filterMap (fun e => (mapGet localTable.m (identity ed25519 e)).map
          (fun ee => "Already authorized:".toList ++ Entry.String ed25519 ee))) ∧
      (mergeKeys ed25519 List.reverse localTable remoteTable true).2.length =
        (remoteTable.List.filter
          (fun e => identity ed25519 e ∈ localTable.List.map (identity ed25519))).length) :=
  ⟨by decide, by decide, List.reverse_perm _, by decide, by decide, by decide,
    (mergeKeys_duplicates ed25519 List.reverse localTable remoteTable true
      (by decide) (by decide) (List.reverse_perm _)).2.1 rfl⟩

/-! ## The dedup invariant -/

/-- C3. Dedup invariant: in a table reachable from `newKt` by `parseKeys`
calls, failing or not, and `mergeKeys` calls whose argument is reachable too,
no two distinct positions of `List` hold entries with the same canonical
identity. -/
theorem dedup_invariant (lib : SSH Key) (kt : KeyTable Key) (h : Reachable lib kt)
    (i j : Nat) (hi : i < kt.List.length) (hj : j < kt.List.length) (hij : i ≠ j) :
    identity lib (kt.List.get ⟨i, hi⟩) ≠ identity lib (kt.List.get ⟨j, hj⟩) := by
  have hnd := (reachable_consistent lib kt h).2
  intro heq
  have hi2 : i < (kt.List.map (identity lib)).length := by simpa using hi
  have hj2 : j < (kt.List.map (identity lib)).length := by simpa using hj
  have h1 : (kt.List.map (identity lib)).get ⟨i, hi2⟩ =
      (kt.List.map (identity lib)).get ⟨j, hj2⟩ := by
    simpa using heq
  have := (List.Nodup.get_inj_iff hnd).1 h1
  exact hij (Fin.mk.inj_iff.1 this)

/-- Witness of C3: a table built by two parses, the second failing after a
duplicate line, and a merge; its two entries differ in identity. -/
theorem dedup_invariant_witness :
    Reachable ed25519 reachedTable ∧
    (parseKeys ed25519 localTable (textK1 ++ " again\nnot a key\n".toList)).2 ≠ none ∧
    reachedTable.List.length = 2 ∧
    ∀ (hi : 0 < reachedTable.List.length) (hj : 1 < reachedTable.List.length),
      identity ed25519 (reachedTable.List.get ⟨0, hi⟩) ≠
        identity ed25519 (reachedTable.List.get ⟨1, hj⟩) :=
  have hreach : Reachable ed25519 reachedTable :=
    Reachable.mergeKeys _ _ List.reverse true
      (Reachable.parseKeys _ _ (Reachable.parseKeys _ _ Reachable.newKt))
      (Reachable.parseKeys _ _ Reachable.newKt) (List.reverse_perm _)
  ⟨hreach, by decide, by decide,
    fun hi hj => dedup_invariant ed25519 reachedTable hreach 0 1 hi hj (by decide)⟩

/-! ## The order of a merge -/

/-- C1 (defect). `mergeKeys` appends in the order in which `range rk.m`
enumerates the identity map, not in the order of `rk.List`: on an empty
receiver and the table B parsed from two key lines, the enumeration that
yields the second binding first gives the list `b2, b1`, which is not the
receiver's list followed by `B.List`; the enumeration in insertion order
gives `b1, b2`. -/
theorem mergeKeys_order_follows_range :
    (parseKeys ed25519 newKt remoteBody).2 = none ∧
    remoteParsed.List =
      [{ key := keyK1, comment := "alice@desk".toList, options := [] },
       { key := keyK2, comment := "alice@work".toList, options := [] }] ∧
    (List.reverse remoteParsed.m).Perm remoteParsed.m ∧
    (mergeKeys ed25519 List.reverse newKt remoteParsed false).1.List =
      [{ key := keyK2, comment := "alice@work".toList, options := [] },
       { key := keyK1, comment := "alice@desk".toList, options := [] }] ∧
    (mergeKeys ed25519 List.reverse newKt remoteParsed false).1.List ≠
      (newKt : KeyTable (List Nat)).List ++ remoteParsed.List ∧
    (mergeKeys ed25519 id newKt remoteParsed false).1.List =
      (newKt : KeyTable (List Nat)).List ++ remoteParsed.List :=
  ⟨by decide, by decide, List.reverse_perm _, by decide, by decide, by decide⟩

/-- Without overlap the merged list is the receiver's list followed by the
entries of the other table in the order of the enumeration of its map. -/
theorem mergeKeys_disjoint_list (lib : SSH Key) (range : IdMap Key → IdMap Key)
    (A B : KeyTable Key) (warn : Bool) (hA : Consistent lib A) (hB : Consistent lib B)
    (hr : (range B.m).Perm B.m)
    (hdisj : ∀ e ∈ B.List, identity lib e ∉ A.List.map (identity lib)) :
    (mergeKeys lib range A B warn).1.List = A.List ++ (range B.m).map Prod.snd ∧
    (mergeKeys lib range A B warn).1.List.Perm (A.List ++ B.List) := by
  rw [mergeKeys_eq lib range A B warn hB hr]
  have hall : absentFrom A.m (range B.m) = range B.m := by
    unfold absentFrom
    rw [List.filter_eq_self]
    intro p hp
    obtain ⟨hk, hl⟩ := Consistent.key_eq lib B hB p (hr.subset hp)
    have hn := hdisj p.2 hl
    rw [← hk, ← Consistent.keys lib A hA] at hn
    rw [(mapGet_eq_none_iff A.m p.1).2 hn]
    rfl
  rw [hall]
  refine ⟨rfl, List.Perm.append_left _ ?_⟩
  rw [← Consistent.values lib B hB]
  exact hr.map _

/-! ## Parsing -/

theorem parseKeysLoop_fuel (lib : SSH Key) (f1 : Nat) :
    ∀ (f2 : Nat) (kt : KeyTable Key) (data : Text), data.length ≤ f1 → data.length ≤ f2 →
      parseKeysLoop lib f1 kt data = parseKeysLoop lib f2 kt data := by
  induction f1 with
  | zero =>
    intro f2 kt data h1 _
    have hd : data.length = 0 := Nat.le_zero.1 h1
    cases f2 with
    | zero => rfl
    | succ m => simp [parseKeysLoop, hd]
  | succ n ih =>
    intro f2 kt data h1 h2
    cases f2 with
    | zero =>
      have hd : data.length = 0 := Nat.le_zero.1 h2
      simp [parseKeysLoop, hd]
    | succ m =>
      unfold parseKeysLoop
      split
      · split
        · rfl
        · rename_i key comment options rest hpak
          have := lib.rest_lt _ _ _ _ _ hpak
          exact ih m _ rest (by omega) (by omega)
      · rfl

/-- The loop equation of `parseKeys`: the model never runs out of iterations. -/
theorem parseKeys_unfold (lib : SSH Key) (kt : KeyTable Key) (data : Text) :
    parseKeys lib kt data =
      if data.length > 0 then
        match lib.ParseAuthorizedKey data with
        | Except.error err => (kt, some err)
        | Except.ok (key, comment, options, rest) =>
          parseKeys lib (parseKeysStep lib kt key comment options) rest
      else (kt, none) := by
  unfold parseKeys
  cases hd : data.length with
  | zero => simp [parseKeysLoop]
  | succ n =>
    rw [parseKeysLoop]
    simp only [hd, gt_iff_lt, Nat.zero_lt_succ, if_true]
    split
    · rfl
    · rename_i key comment options rest hpak
      have := lib.rest_lt _ _ _ _ _ hpak
      exact parseKeysLoop_fuel lib n rest.length _ rest (by omega) (Nat.le_refl _)

theorem parseKeysLoop_insertAll (lib : SSH Key) (fuel : Nat) :
    ∀ (kt : KeyTable Key) (data : Text),
      (parseKeysLoop lib fuel kt data).1 = insertAll lib kt (parsedLoop lib fuel data) := by
  induction fuel with
  | zero => intro kt data; rfl
  | succ n ih =>
    intro kt data
    unfold parseKeysLoop parsedLoop
    split
    · split
      · rfl
      · rw [ih]; rfl
    · rfl

theorem parseKeys_insertAll (lib : SSH Key) (kt : KeyTable Key) (data : Text) :
    (parseKeys lib kt data).1 = insertAll lib kt (parsedEntries lib data) :=
  parseKeysLoop_insertAll lib data.length kt data

theorem mapGet_append (m m2 : IdMap Key) (k : Text) :
    mapGet (m ++ m2) k = match mapGet m k with
      | some v => some v
      | none => mapGet m2 k := by
  induction m with
  | nil => simp [mapGet]
  | cons p rest ih =>
    obtain ⟨k', v'⟩ := p
    by_cases hk : k' = k
    · simp [mapGet, hk]
    · simp [mapGet, hk, ih]

theorem insertAll_spec (lib : SSH Key) (es : List (Entry Key)) :
    ∀ kt : KeyTable Key, ∃ added : List (Entry Key),
      (insertAll lib kt es).List = kt.List ++ added ∧
      (insertAll lib kt es).m = kt.m ++ added.map (fun e => (identity lib e, e)) ∧
      (∀ e ∈ added, mapGet kt.m (identity lib e) = none ∧
        es.find? (fun x => identity lib x = identity lib e) = some e) ∧
      (∀ x ∈ es, (mapGet kt.m (identity lib x)).isSome = true ∨
        ∃ e ∈ added, identity lib e = identity lib x) := by
  induction es with
  | nil => intro kt; exact ⟨[], by simp [insertAll]⟩
  | cons x es ih =>
    intro kt
    have hstep : insertAll lib kt (x :: es) =
        insertAll lib (parseKeysStep lib kt x.key x.comment x.options) es := rfl
    rw [hstep]
    cases hget : mapGet kt.m (lib.MarshalAuthorizedKey x.key) with
    | some ee =>
      rw [parseKeysStep_present lib kt _ _ _ ee hget]
      obtain ⟨added, h1, h2, h3, h4⟩ := ih kt
      refine ⟨added, h1, h2, ?_, ?_⟩
      · intro e he
        obtain ⟨hn, hf⟩ := h3 e he
        refine ⟨hn, ?_⟩
        have hne : ¬ identity lib x = identity lib e := by
          intro hc
          have : mapGet kt.m (identity lib e) = some ee := hc ▸ hget
          rw [hn] at this
          exact Option.noConfusion this
        rw [List.find?_cons]
        simp only [hne, decide_False]
        exact hf
      · intro y hy
        rcases List.mem_cons.1 hy with rfl | hy
        · left
          show (mapGet kt.m (lib.MarshalAuthorizedKey y.key)).isSome = true
          rw [hget]; rfl
        · exact h4 y hy
    | none =>
      rw [parseKeysStep_absent lib kt _ _ _ hget]
      have hx : ({ key := x.key, comment := x.comment, options := x.options } : Entry Key) = x := by
        cases x; rfl
      rw [hx]
      obtain ⟨added, h1, h2, h3, h4⟩ :=
        ih { List := kt.List ++ [x], m := kt.m ++ [(lib.MarshalAuthorizedKey x.key, x)] }
      refine ⟨x :: added, ?_, ?_, ?_, ?_⟩
      · rw [h1]; simp
      · rw [h2]; simp [identity]
      · intro e he
        rcases List.mem_cons.1 he with rfl | he
        · exact ⟨hget, by simp [List.find?_cons]⟩
        · obtain ⟨hn, hf⟩ := h3 e he
          simp only at hn
          rw [mapGet_append] at hn
          cases hk : mapGet kt.m (identity lib e) with
          | some v => rw [hk] at hn; exact Option.noConfusion hn
          | none =>
            rw [hk] at hn
            have hne : ¬ identity lib x = identity lib e := by
              intro hc
              have hc2 : lib.MarshalAuthorizedKey x.key = identity lib e := hc
              simp [mapGet, hc2] at hn
            refine ⟨rfl, ?_⟩
            rw [List.find?_cons]
            simp only [hne, decide_False]
            exact hf
      · intro y hy
        rcases List.mem_cons.1 hy with rfl | hy
        · right; exact ⟨y, List.mem_cons_self _ _, rfl⟩
        · rcases h4 y hy with hs | ⟨e, he, heq⟩
          · simp only at hs
            rw [mapGet_append] at hs
            cases hk : mapGet kt.m (identity lib y) with
            | some v => left; rfl
            | none =>
              rw [hk] at hs
              right
              refine ⟨x, List.mem_cons_self _ _, ?_⟩
              by_contra hne
              have hne2 : ¬ lib.MarshalAuthorizedKey x.key = identity lib y := hne
              simp [mapGet, hne2] at hs
          · right; exact ⟨e, List.mem_cons_of_mem _ he, heq⟩

theorem mapGet_map_isSome (lib : SSH Key) (l : List (Entry Key)) (e : Entry Key) (he : e ∈ l) :
    (mapGet (l.map (fun x => (identity lib x, x))) (identity lib e)).isSome = true := by
  induction l with
  | nil => cases he
  | cons a l ih =>
    by_cases ha : identity lib a = identity lib e
    · simp [mapGet, ha]
    · rcases List.mem_cons.1 he with rfl | he
      · exact absurd rfl ha
      · simp only [List.map_cons, mapGet, ha, if_false]
        exact ih he

/-- Counterexample to C4: the buffer holds a valid line with K1 and then a
line that is no key; on an empty table `parseKeys` returns an error and the
table holds the entry of the first line. -/
theorem parseKeys_error_keeps_parsed_lines :
    (parseKeys ed25519 newKt (localFile ++ "this is garbage\n".toList)).2 ≠ none ∧
    (parseKeys ed25519 newKt (localFile ++ "this is garbage\n".toList)).1.List =
      [{ key := keyK1, comment := "laptop".toList, options := [] }] ∧
    (parseKeys ed25519 newKt (localFile ++ "this is garbage\n".toList)).1 ≠ newKt := by
  decide

/-- C4, amended. If `parseKeys(data)` returns an error, the table holds the
entries it held before the call, in the same order, followed by entries parsed
from the lines of `data` that precede the failure, whose identities the table
lacked; the identity map grows by the same entries; and every entry parsed
before the failure has its identity in the table (nothing is rolled back). -/
theorem parseKeys_error_commits_prefix (lib : SSH Key) (kt : KeyTable Key) (data : Text)
    (h : (parseKeys lib kt data).2 ≠ none) :
    ∃ added : List (Entry Key),
      (parseKeys lib kt data).1.List = kt.List ++ added ∧
      (parseKeys lib kt data).1.m = kt.m ++ added.map (fun e => (identity lib e, e)) ∧
      (∀ e ∈ added, e ∈ parsedEntries lib data ∧ mapGet kt.m (identity lib e) = none) ∧
      (∀ x ∈ parsedEntries lib data,
        (mapGet (parseKeys lib kt data).1.m (identity lib x)).isSome = true) := by
  cases hres : (parseKeys lib kt data).2 with
  | none => exact absurd hres h
  | some err =>
  obtain ⟨added, h1, h2, h3, h4⟩ := insertAll_spec lib (parsedEntries lib data) kt
  rw [parseKeys_insertAll]
  refine ⟨added, h1, h2, ?_, ?_⟩
  · intro e he
    exact ⟨List.mem_of_find?_eq_some (h3 e he).2, (h3 e he).1⟩
  · intro x hx
    rw [h2, mapGet_append]
    rcases h4 x hx with hs | ⟨e, he, heq⟩
    · obtain ⟨v, hv⟩ := Option.isSome_iff_exists.1 hs
      rw [hv]; rfl
    · cases hk : mapGet kt.m (identity lib x) with
      | some v => rfl
      | none =>
        simp only
        rw [← heq]
        exact mapGet_map_isSome lib added e he

/-- Witness of C4 as amended: the local table holds K1; the buffer holds K2
and then a line that is no key. -/
theorem parseKeys_error_commits_prefix_witness :
    (parseKeys ed25519 localTable (textK2 ++ " work\nnot a key\n".toList)).2 ≠ none ∧
    (parseKeys ed25519 localTable (textK2 ++ " work\nnot a key\n".toList)).1.List =
      [{ key := keyK1, comment := "laptop".toList, options := [] },
       { key := keyK2, comment := "work".toList, options := [] }] ∧
    ∃ added : List (Entry (List Nat)),
      (parseKeys ed25519 localTable (textK2 ++ " work\nnot a key\n".toList)).1.List =
        localTable.List ++ added ∧
      (parseKeys ed25519 localTable (textK2 ++ " work\nnot a key\n".toList)).1.m =
        localTable.m ++ added.map (fun e => (identity ed25519 e, e)) ∧
      (∀ e ∈ added, e ∈ parsedEntries ed25519 (textK2 ++ " work\nnot a key\n".toList) ∧
        mapGet localTable.m (identity ed25519 e) = none) ∧
      (∀ x ∈ parsedEntries ed25519 (textK2 ++ " work\nnot a key\n".toList),
        (mapGet (parseKeys ed25519 localTable (textK2 ++ " work\nnot a key\n".toList)).1.m
          (identity ed25519 x)).isSome = true) :=
  ⟨by decide, by decide,
    parseKeys_error_commits_prefix ed25519 localTable
      (textK2 ++ " work\nnot a key\n".toList) (by decide)⟩

/-- C5. First seen wins in parsing.  On an empty table, every entry kept by one
`parseKeys` call is the earliest parsed entry with its canonical identity, every
parsed entry has its identity kept, and no identity is kept twice; in
particular a buffer whose two lines parse to the same key, with the comments
`c1` and `c2`, is parsed without error into the single entry with the comment
`c1`.  On any table that satisfies the table invariant, the call keeps the
entries of the table, in their order, and appends after them, for each
identity that the table lacks and a line of the buffer carries, the entry of
the earliest such line and no other; again no identity is kept twice. -/
theorem parseKeys_first_seen_wins (lib : SSH Key) (data : Text) :
    (∀ e ∈ (parseKeys lib newKt data).1.List,
      (parsedEntries lib data).find? (fun x => identity lib x = identity lib e) = some e) ∧
    (∀ x ∈ parsedEntries lib data,
      ∃ e ∈ (parseKeys lib newKt data).1.List, identity lib e = identity lib x) ∧
    ((parseKeys lib newKt data).1.List.map (identity lib)).Nodup ∧
    (∀ (K K2 : Key) (c1 c2 : Text) (o1 o2 : List Text) (r1 : Text),
      lib.ParseAuthorizedKey data = Except.ok (K, c1, o1, r1) →
      lib.ParseAuthorizedKey r1 = Except.ok (K2, c2, o2, []) →
      lib.MarshalAuthorizedKey K2 = lib.MarshalAuthorizedKey K →
      (parseKeys lib newKt data).2 = none ∧
      (parseKeys lib newKt data).1.List = [{ key := K, comment := c1, options := o1 }]) ∧
    (∀ kt : KeyTable Key, Consistent lib kt →
      ∃ added : List (Entry Key),
        (parseKeys lib kt data).1.List = kt.List ++ added ∧
        (∀ e ∈ added, identity lib e ∉ kt.List.map (identity lib) ∧
          (parsedEntries lib data).find? (fun x => identity lib x = identity lib e) = some e) ∧
        (∀ x ∈ parsedEntries lib data, identity lib x ∈ kt.List.map (identity lib) ∨
          ∃ e ∈ added, identity lib e = identity lib x) ∧
        ((parseKeys lib kt data).1.List.map (identity lib)).Nodup) := by
  obtain ⟨added, h1, _, h3, h4⟩ := insertAll_spec lib (parsedEntries lib data) newKt
  have hlist : (parseKeys lib newKt data).1.List = added := by
    rw [parseKeys_insertAll, h1]; rfl
  refine ⟨?_, ?_, ?_, ?_, ?_⟩
  · intro e he
    rw [hlist] at he
    exact (h3 e he).2
  · intro x hx
    rcases h4 x hx with hs | ⟨e, he, heq⟩
    · exact Bool.noConfusion hs
    · exact ⟨e, hlist ▸ he, heq⟩
  · exact (parseKeysLoop_consistent lib _ newKt data (consistent_newKt lib)).2
  · intro K K2 c1 c2 o1 o2 r1 hp1 hp2 hsame
    have hlen1 := lib.rest_lt _ _ _ _ _ hp1
    have hlen2 := lib.rest_lt _ _ _ _ _ hp2
    have hd : data.length > 0 := by omega
    have hr : r1.length > 0 := by omega
    have hfirst : parseKeysStep lib newKt K c1 o1 =
        { List := [{ key := K, comment := c1, options := o1 }],
          m := [(lib.MarshalAuthorizedKey K, { key := K, comment := c1, options := o1 })] } := by
      rw [parseKeysStep_absent lib newKt K c1 o1 rfl]; rfl
    have hsecond : parseKeysStep lib
        { List := [{ key := K, comment := c1, options := o1 }],
          m := [(lib.MarshalAuthorizedKey K, { key := K, comment := c1, options := o1 })] }
        K2 c2 o2 =
        { List := [{ key := K, comment := c1, options := o1 }],
          m := [(lib.MarshalAuthorizedKey K, { key := K, comment := c1, options := o1 })] } := by
      apply parseKeysStep_present lib _ K2 c2 o2 { key := K, comment := c1, options := o1 }
      simp [mapGet, hsame]
    rw [parseKeys_unfold, if_pos hd, hp1]
    simp only
    rw [hfirst, parseKeys_unfold, if_pos hr, hp2]
    simp only
    rw [hsecond, parseKeys_unfold]
    simp
  · intro kt hk
    obtain ⟨added, g1, _, g3, g4⟩ := insertAll_spec lib (parsedEntries lib data) kt
    refine ⟨added, by rw [parseKeys_insertAll]; exact g1, ?_, ?_,
      (parseKeysLoop_consistent lib _ kt data hk).2⟩
    · intro e he
      refine ⟨?_, (g3 e he).2⟩
      rw [← Consistent.keys lib kt hk]
      exact (mapGet_eq_none_iff kt.m _).1 (g3 e he).1
    · intro x hx
      rcases g4 x hx with hs | hex
      · exact Or.inl ((mapGet_isSome_iff lib kt hk _).1 hs)
      · exact Or.inr hex

/-- Witness of C5: the key K1 twice, with the comments `first` and `second`,
on an empty table; and on the local table, which holds K1 `laptop`, a buffer
with K1 `again`, K2 `first` and K2 `second`. -/
theorem parseKeys_first_seen_wins_witness :
    ((parseKeys ed25519 newKt
        (textK1 ++ " first\n".toList ++ textK1 ++ " second\n".toList)).2 = none ∧
      (parseKeys ed25519 newKt
        (textK1 ++ " first\n".toList ++ textK1 ++ " second\n".toList)).1.List =
        [{ key := keyK1, comment := "first".toList, options := [] }]) ∧
    Consistent ed25519 localTable ∧
    (parseKeys ed25519 localTable (textK1 ++ " again\n".toList ++ textK2 ++
        " first\n".toList ++ textK2 ++ " second\n".toList)).1.List =
      [{ key := keyK1, comment := "laptop".toList, options := [] },
       { key := keyK2, comment := "first".toList, options := [] }] ∧
    ∃ added : List (Entry (List Nat)),
      (parseKeys ed25519 localTable (textK1 ++ " again\n".toList ++ textK2 ++
          " first\n".toList ++ textK2 ++ " second\n".toList)).1.List =
        localTable.List ++ added ∧
      (∀ e ∈ added, identity ed25519 e ∉ localTable.List.map (identity ed25519) ∧
        (parsedEntries ed25519 (textK1 ++ " again\n".toList ++ textK2 ++
            " first\n".toList ++ textK2 ++ " second\n".toList)).find?
          (fun x => identity ed25519 x = identity ed25519 e) = some e) ∧
      (∀ x ∈ parsedEntries ed25519 (textK1 ++ " again\n".toList ++ textK2 ++
          " first\n".toList ++ textK2 ++ " second\n".toList),
        identity ed25519 x ∈ localTable.List.map (identity ed25519) ∨
          ∃ e ∈ added, identity ed25519 e = identity ed25519 x) ∧
      ((parseKeys ed25519 localTable (textK1 ++ " again\n".toList ++ textK2 ++
          " first\n".toList ++ textK2 ++ " second\n".toList)).1.List.map
        (identity ed25519)).Nodup :=
  ⟨(parseKeys_first_seen_wins ed25519
      (textK1 ++ " first\n".toList ++ textK1 ++ " second\n".toList)).2.2.2.1
    keyK1 keyK1 "first".toList "second".toList [] [] (textK1 ++ " second\n".toList)
    (by rfl) (by rfl) rfl,
   by decide, by decide,
   (parseKeys_first_seen_wins ed25519 (textK1 ++ " again\n".toList ++ textK2 ++
      " first\n".toList ++ textK2 ++ " second\n".toList)).2.2.2.2 localTable (by decide)⟩

/-! ## The line scanner: which buffers fail -/

theorem afterLine_shorter (inp : Text) (h : 0 < inp.length) :
    (afterLine inp).length < inp.length := by
  unfold afterLine
  have h1 := (List.dropWhile_sublist (fun c => c != '\n') (l := inp)).length_le
  rw [List.length_drop]
  omega

theorem ParseAuthorizedKeyLoop_fuel (rd : LineReader Key) (f1 : Nat) :
    ∀ (f2 : Nat) (inp : Text), inp.length ≤ f1 → inp.length ≤ f2 →
      ParseAuthorizedKeyLoop rd f1 inp = ParseAuthorizedKeyLoop rd f2 inp := by
  induction f1 with
  | zero =>
    intro f2 inp h1 _
    have hd : inp.length = 0 := Nat.le_zero.1 h1
    cases f2 with
    | zero => rfl
    | succ m => simp [ParseAuthorizedKeyLoop, hd]
  | succ n ih =>
    intro f2 inp h1 h2
    cases f2 with
    | zero =>
      have hd : inp.length = 0 := Nat.le_zero.1 h2
      simp [ParseAuthorizedKeyLoop, hd]
    | succ m =>
      unfold ParseAuthorizedKeyLoop
      split
      · rename_i hpos
        have := afterLine_shorter inp hpos
        split
        · rfl
        · exact ih m _ (by omega) (by omega)
      · rfl

/-- The loop equation of `ssh.ParseAuthorizedKey`: the model never runs out of
iterations. -/
theorem firstKey_unfold (rd : LineReader Key) (inp : Text) :
    firstKey rd inp =
      if inp.length > 0 then
        match rd.parseLine (firstLine inp) with
        | some (out, comment, options) => some (out, comment, options, afterLine inp)
        | none => firstKey rd (afterLine inp)
      else none := by
  unfold firstKey
  cases hd : inp.length with
  | zero => simp [ParseAuthorizedKeyLoop]
  | succ n =>
    rw [ParseAuthorizedKeyLoop]
    have hpos : 0 < inp.length := by omega
    have := afterLine_shorter inp hpos
    simp only [hd, gt_iff_lt, Nat.zero_lt_succ, if_true]
    split
    · rfl
    · exact ParseAuthorizedKeyLoop_fuel rd n _ _ (by omega) (Nat.le_refl _)

theorem ParseAuthorizedKey_of_some (rd : LineReader Key) (inp : Text)
    (r : Key × Text × List Text × Text) (h : firstKey rd inp = some r) :
    (xcrypto rd).ParseAuthorizedKey inp = Except.ok r := by
  show ParseAuthorizedKey rd inp = _
  unfold ParseAuthorizedKey
  unfold firstKey at h
  rw [h]

theorem ParseAuthorizedKey_of_none (rd : LineReader Key) (inp : Text)
    (h : firstKey rd inp = none) :
    (xcrypto rd).ParseAuthorizedKey inp = Except.error (rd.noKey inp) := by
  show ParseAuthorizedKey rd inp = _
  unfold ParseAuthorizedKey
  unfold firstKey at h
  rw [h]

theorem firstLine_cons_ne (c : Char) (s : Text) (h : c ≠ '\n') :
    firstLine (c :: s) = c :: firstLine s ∧ afterLine (c :: s) = afterLine s := by
  have hb : (c != '\n') = true := by simpa using h
  simp [firstLine, afterLine, List.takeWhile_cons, List.dropWhile_cons, hb]

theorem firstLine_cons_nl (s : Text) :
    firstLine ('\n' :: s) = [] ∧ afterLine ('\n' :: s) = s := by
  simp [firstLine, afterLine, List.takeWhile_cons, List.dropWhile_cons]

theorem firstLine_append_nl (bad rest : Text) (h : ∀ x ∈ bad, x ≠ '\n') :
    firstLine (bad ++ '\n' :: rest) = bad ∧ afterLine (bad ++ '\n' :: rest) = rest := by
  induction bad with
  | nil => exact firstLine_cons_nl rest
  | cons c cs ih =>
    have hc := h c (List.mem_cons_self _ _)
    have := ih (fun x hx => h x (List.mem_cons_of_mem _ hx))
    rw [List.cons_append, (firstLine_cons_ne c _ hc).1, (firstLine_cons_ne c _ hc).2,
      this.1, this.2]
    exact ⟨rfl, rfl⟩

theorem line_of_boundary (pre : Text) :
    pre ≠ [] → pre.getLast? = some '\n' → ∀ tail : Text,
      firstLine (pre ++ tail) = firstLine pre ∧
      afterLine (pre ++ tail) = afterLine pre ++ tail ∧
      LineBoundary (afterLine pre) := by
  induction pre with
  | nil => intro h; exact absurd rfl h
  | cons c cs ih =>
    intro _ hlast tail
    by_cases hc : c = '\n'
    · subst hc
      have h1 := firstLine_cons_nl (cs ++ tail)
      have h2 := firstLine_cons_nl cs
      refine ⟨by rw [List.cons_append, h1.1, h2.1], by rw [List.cons_append, h1.2, h2.2], ?_⟩
      rw [h2.2]
      cases cs with
      | nil => exact Or.inl rfl
      | cons d ds =>
        right
        rw [List.getLast?_cons_cons] at hlast
        exact hlast
    · have h1 := firstLine_cons_ne c (cs ++ tail) hc
      have h2 := firstLine_cons_ne c cs hc
      cases cs with
      | nil =>
        simp only [List.getLast?_singleton, Option.some.injEq] at hlast
        exact absurd hlast hc
      | cons d ds =>
        rw [List.getLast?_cons_cons] at hlast
        obtain ⟨i1, i2, i3⟩ := ih (List.cons_ne_nil d ds) hlast tail
        refine ⟨?_, ?_, ?_⟩
        · rw [List.cons_append, h1.1, h2.1, i1]
        · rw [List.cons_append, h1.2, h2.2, i2]
        · rw [h2.2]; exact i3

theorem firstKey_rest_of_boundary (rd : LineReader Key) (tail : Text)
    (htail : firstKey rd tail = none) (n : Nat) :
    ∀ pre : Text, pre.length ≤ n → LineBoundary pre →
      ∀ key comment options rest,
        firstKey rd (pre ++ tail) = some (key, comment, options, rest) →
        ∃ pre2, rest = pre2 ++ tail ∧ LineBoundary pre2 ∧ pre2.length < pre.length := by
  induction n with
  | zero =>
    intro pre hlen _ key comment options rest h
    have : pre = [] := List.length_eq_zero.1 (Nat.le_zero.1 hlen)
    subst this
    rw [List.nil_append, htail] at h
    exact Option.noConfusion h
  | succ n ih =>
    intro pre hlen hb key comment options rest h
    rcases hb with rfl | hlast
    · rw [List.nil_append, htail] at h
      exact Option.noConfusion h
    · have hne : pre ≠ [] := by
        intro hc; rw [hc] at hlast; exact Option.noConfusion hlast
      obtain ⟨l1, l2, l3⟩ := line_of_boundary pre hne hlast tail
      have hpos : 0 < pre.length := List.length_pos.2 hne
      have hshort := afterLine_shorter pre hpos
      rw [firstKey_unfold] at h
      have hpos2 : (pre ++ tail).length > 0 := by rw [List.length_append]; omega
      rw [if_pos hpos2, l1, l2] at h
      split at h
      · simp only [Option.some.injEq, Prod.mk.injEq] at h
        exact ⟨afterLine pre, h.2.2.2.symm, l3, hshort⟩
      · obtain ⟨pre2, r1, r2, r3⟩ := ih (afterLine pre) (by omega) l3 _ _ _ _ h
        exact ⟨pre2, r1, r2, by omega⟩

theorem parseKeys_error_of_boundary (rd : LineReader Key) (tail : Text)
    (hne : tail ≠ []) (htail : firstKey rd tail = none) (n : Nat) :
    ∀ (pre : Text) (kt : KeyTable Key), pre.length ≤ n → LineBoundary pre →
      (parseKeys (xcrypto rd) kt (pre ++ tail)).2 ≠ none := by
  induction n using Nat.strong_induction_on with
  | _ n ih =>
    intro pre kt hlen hb
    have hpos : (pre ++ tail).length > 0 := by
      rw [List.length_append]
      have := List.length_pos.2 hne
      omega
    rw [parseKeys_unfold, if_pos hpos]
    cases hfk : firstKey rd (pre ++ tail) with
    | none =>
      rw [ParseAuthorizedKey_of_none rd _ hfk]
      exact fun hc => Option.noConfusion hc
    | some r =>
      obtain ⟨key, comment, options, rest⟩ := r
      rw [ParseAuthorizedKey_of_some rd _ _ hfk]
      simp only
      obtain ⟨pre2, r1, r2, r3⟩ :=
        firstKey_rest_of_boundary rd tail htail pre.length pre (Nat.le_refl _) hb
          key comment options rest hfk
      rw [r1]
      exact ih pre2.length (by omega) pre2 _ (Nat.le_refl _) r2

theorem splitLines_eq (inp : Text) (h : inp ≠ []) :
    splitLines inp = firstLine inp :: splitLines (afterLine inp) := by
  induction inp with
  | nil => exact absurd rfl h
  | cons c cs ih =>
    by_cases hc : c = '\n'
    · subst hc
      rw [(firstLine_cons_nl cs).1, (firstLine_cons_nl cs).2]
      simp [splitLines]
    · rw [(firstLine_cons_ne c cs hc).1, (firstLine_cons_ne c cs hc).2]
      cases cs with
      | nil => simp [splitLines, hc, firstLine, afterLine]
      | cons d ds =>
        have := ih (List.cons_ne_nil d ds)
        rw [splitLines, if_neg hc, this]

theorem firstKey_none_of_lines (rd : LineReader Key) (n : Nat) :
    ∀ inp : Text, inp.length ≤ n →
      (∀ line ∈ splitLines inp, rd.parseLine line = none) →
      firstKey rd inp = none := by
  induction n with
  | zero =>
    intro inp hlen _
    have : inp = [] := List.length_eq_zero.1 (Nat.le_zero.1 hlen)
    subst this
    rfl
  | succ n ih =>
    intro inp hlen hall
    by_cases hne : inp = []
    · subst hne; rfl
    · have hpos : 0 < inp.length := List.length_pos.2 hne
      have hshort := afterLine_shorter inp hpos
      rw [splitLines_eq inp hne] at hall
      rw [firstKey_unfold, if_pos hpos, hall _ (List.mem_cons_self _ _)]
      exact ih _ (by omega) (fun line hl => hall line (List.mem_cons_of_mem _ hl))

/-- What the loop of `ssh.ParseAuthorizedKey` finds in a buffer with and
without a line that does not parse: nothing in either, the same key and rest
in both, or the same key with rests that differ by that line only. -/
theorem firstKey_skip (rd : LineReader Key) (bad rest : Text)
    (hbad : ∀ x ∈ bad, x ≠ '\n') (hnone : rd.parseLine bad = none) (n : Nat) :
    ∀ pre : Text, pre.length ≤ n → LineBoundary pre →
      (firstKey rd (pre ++ (bad ++ '\n' :: rest)) = none ∧ firstKey rd (pre ++ rest) = none) ∨
      (∃ r, firstKey rd (pre ++ (bad ++ '\n' :: rest)) = some r ∧
        firstKey rd (pre ++ rest) = some r) ∨
      (∃ key comment options pre2, LineBoundary pre2 ∧ pre2.length < pre.length ∧
        firstKey rd (pre ++ (bad ++ '\n' :: rest)) =
          some (key, comment, options, pre2 ++ (bad ++ '\n' :: rest)) ∧
        firstKey rd (pre ++ rest) = some (key, comment, options, pre2 ++ rest)) := by
  have hbase : firstKey rd (bad ++ '\n' :: rest) = firstKey rd rest := by
    have hpos : (bad ++ '\n' :: rest).length > 0 := by simp
    rw [firstKey_unfold, if_pos hpos, (firstLine_append_nl bad rest hbad).1, hnone,
      (firstLine_append_nl bad rest hbad).2]
  have hnil : firstKey rd (bad ++ '\n' :: rest) = none ∧ firstKey rd rest = none ∨
      ∃ r, firstKey rd (bad ++ '\n' :: rest) = some r ∧ firstKey rd rest = some r := by
    rw [hbase]
    cases hr : firstKey rd rest with
    | none => exact Or.inl ⟨rfl, rfl⟩
    | some r => exact Or.inr ⟨r, rfl, rfl⟩
  induction n with
  | zero =>
    intro pre hlen _
    have : pre = [] := List.length_eq_zero.1 (Nat.le_zero.1 hlen)
    subst this
    simp only [List.nil_append]
    rcases hnil with h | h
    · exact Or.inl h
    · exact Or.inr (Or.inl h)
  | succ n ih =>
    intro pre hlen hb
    rcases hb with rfl | hlast
    · simp only [List.nil_append]
      rcases hnil with h | h
      · exact Or.inl h
      · exact Or.inr (Or.inl h)
    · have hne : pre ≠ [] := by
        intro hc; rw [hc] at hlast; exact Option.noConfusion hlast
      have hpos : 0 < pre.length := List.length_pos.2 hne
      have hshort := afterLine_shorter pre hpos
      obtain ⟨a1, a2, a3⟩ := line_of_boundary pre hne hlast (bad ++ '\n' :: rest)
      obtain ⟨b1, b2, _⟩ := line_of_boundary pre hne hlast rest
      have hposA : (pre ++ (bad ++ '\n' :: rest)).length > 0 := by
        rw [List.length_append]; omega
      have hposB : (pre ++ rest).length > 0 := by
        rw [List.length_append]; omega
      rw [firstKey_unfold rd (pre ++ (bad ++ '\n' :: rest)), if_pos hposA, a1, a2,
        firstKey_unfold rd (pre ++ rest), if_pos hposB, b1, b2]
      cases hl : rd.parseLine (firstLine pre) with
      | some r =>
        obtain ⟨key, comment, options⟩ := r
        exact Or.inr (Or.inr ⟨key, comment, options, afterLine pre, a3, hshort, rfl, rfl⟩)
      | none =>
        simp only
        rcases ih (afterLine pre) (by omega) a3 with h | h | ⟨key, comment, options, pre2, h1, h2, h3, h4⟩
        · exact Or.inl h
        · exact Or.inr (Or.inl h)
        · exact Or.inr (Or.inr ⟨key, comment, options, pre2, h1, by omega, h3, h4⟩)

theorem parseKeys_skip_line (rd : LineReader Key) (bad rest : Text)
    (hbad : ∀ x ∈ bad, x ≠ '\n') (hnone : rd.parseLine bad = none) (hrest : rest ≠ [])
    (n : Nat) :
    ∀ (pre : Text) (kt : KeyTable Key), pre.length ≤ n → LineBoundary pre →
      (parseKeys (xcrypto rd) kt (pre ++ (bad ++ '\n' :: rest))).1 =
        (parseKeys (xcrypto rd) kt (pre ++ rest)).1 ∧
      ((parseKeys (xcrypto rd) kt (pre ++ (bad ++ '\n' :: rest))).2 = none ↔
        (parseKeys (xcrypto rd) kt (pre ++ rest)).2 = none) := by
  induction n using Nat.strong_induction_on with
  | _ n ih =>
    intro pre kt hlen hb
    have hposA : (pre ++ (bad ++ '\n' :: rest)).length > 0 := by simp
    have hposB : (pre ++ rest).length > 0 := by
      rw [List.length_append]
      have := List.length_pos.2 hrest
      omega
    rw [parseKeys_unfold (xcrypto rd) kt (pre ++ (bad ++ '\n' :: rest)), if_pos hposA,
      parseKeys_unfold (xcrypto rd) kt (pre ++ rest), if_pos hposB]
    rcases firstKey_skip rd bad rest hbad hnone pre.length pre (Nat.le_refl _) hb with
      ⟨h1, h2⟩ | ⟨r, h1, h2⟩ | ⟨key, comment, options, pre2, hb2, hlt, h1, h2⟩
    · rw [ParseAuthorizedKey_of_none rd _ h1, ParseAuthorizedKey_of_none rd _ h2]
      exact ⟨rfl, ⟨fun hc => Option.noConfusion hc, fun hc => Option.noConfusion hc⟩⟩
    · rw [ParseAuthorizedKey_of_some rd _ _ h1, ParseAuthorizedKey_of_some rd _ _ h2]
      exact ⟨rfl, Iff.rfl⟩
    · rw [ParseAuthorizedKey_of_some rd _ _ h1, ParseAuthorizedKey_of_some rd _ _ h2]
      simp only
      exact ih pre2.length (by omega) pre2 _ (Nat.le_refl _) hb2

/-- Counterexample to C2: the first line of the buffer has a base64 field that
is no base64 and cannot be parsed, the second line is a valid key line;
`ssh.ParseAuthorizedKey` skips the first line and `parseKeys` returns no
error. -/
theorem parseKeys_skips_malformed_line :
    parseLine ed25519Codec "ssh-ed25519 AAAAC3Nza_broken bob".toList = none ∧
    (parseKeys ed25519 newKt ("ssh-ed25519 AAAAC3Nza_broken bob\n".toList ++ localFile)).2 =
      none ∧
    (parseKeys ed25519 newKt ("ssh-ed25519 AAAAC3Nza_broken bob\n".toList ++ localFile)).1.List =
      [{ key := keyK1, comment := "laptop".toList, options := [] }] := by
  decide

/-- C2, amended. For every reading of lines by the library: when the buffer,
from the start of some line on, is not empty and holds no line that parses as
an authorized-keys entry (a malformed line that no valid key line follows, for
instance as the second and last line after a valid first line), `parseKeys`
returns an error, whatever precedes that line.  A line that does not parse and
is followed by more of the buffer is skipped: `parseKeys` leaves the same table
and returns an error in the same cases as on the buffer without that line, so
a malformed line that valid key lines follow to the end of the buffer causes
no error. -/
theorem parseKeys_error_of_unparsable_tail (rd : LineReader Key) (kt : KeyTable Key) :
    (∀ pre tail : Text, LineBoundary pre → tail ≠ [] →
      (∀ line ∈ splitLines tail, rd.parseLine line = none) →
      (parseKeys (xcrypto rd) kt (pre ++ tail)).2 ≠ none) ∧
    (∀ pre bad rest : Text, LineBoundary pre → (∀ x ∈ bad, x ≠ '\n') →
      rd.parseLine bad = none → rest ≠ [] →
      (parseKeys (xcrypto rd) kt (pre ++ (bad ++ '\n' :: rest))).1 =
        (parseKeys (xcrypto rd) kt (pre ++ rest)).1 ∧
      ((parseKeys (xcrypto rd) kt (pre ++ (bad ++ '\n' :: rest))).2 = none ↔
        (parseKeys (xcrypto rd) kt (pre ++ rest)).2 = none)) :=
  ⟨fun pre tail hb hne hbad =>
      parseKeys_error_of_boundary rd tail hne
        (firstKey_none_of_lines rd tail.length tail (Nat.le_refl _) hbad)
        pre.length pre kt (Nat.le_refl _) hb,
    fun pre bad rest hb hbad hnone hrest =>
      parseKeys_skip_line rd bad rest hbad hnone hrest pre.length pre kt (Nat.le_refl _) hb⟩

/-- Witness of C2 as amended: a valid first line and then a line whose base64
field is no base64 give an error; the same line between two valid lines is
skipped. -/
theorem parseKeys_error_of_unparsable_tail_witness :
    (LineBoundary localFile ∧ "ssh-ed25519 AAAAC3Nza_broken bob\n".toList ≠ [] ∧
      splitLines "ssh-ed25519 AAAAC3Nza_broken bob\n".toList =
        ["ssh-ed25519 AAAAC3Nza_broken bob".toList] ∧
      (∀ line ∈ splitLines "ssh-ed25519 AAAAC3Nza_broken bob\n".toList,
        (xcryptoReader ed25519Codec).parseLine line = none) ∧
      (parseKeys (xcrypto (xcryptoReader ed25519Codec)) newKt
        (localFile ++ "ssh-ed25519 AAAAC3Nza_broken bob\n".toList)).2 ≠ none) ∧
    ((parseKeys (xcrypto (xcryptoReader ed25519Codec)) newKt
        (localFile ++ ("ssh-ed25519 AAAAC3Nza_broken bob".toList ++
          '\n' :: (textK2 ++ " work\n".toList)))).1 =
        (parseKeys (xcrypto (xcryptoReader ed25519Codec)) newKt
          (localFile ++ (textK2 ++ " work\n".toList))).1 ∧
      ((parseKeys (xcrypto (xcryptoReader ed25519Codec)) newKt
          (localFile ++ ("ssh-ed25519 AAAAC3Nza_broken bob".toList ++
            '\n' :: (textK2 ++ " work\n".toList)))).2 = none ↔
        (parseKeys (xcrypto (xcryptoReader ed25519Codec)) newKt
          (localFile ++ (textK2 ++ " work\n".toList))).2 = none) ∧
      (parseKeys (xcrypto (xcryptoReader ed25519Codec)) newKt
        (localFile ++ (textK2 ++ " work\n".toList))).2 = none) :=
  ⟨⟨Or.inr (by decide), by decide, by decide, by decide,
    (parseKeys_error_of_unparsable_tail (xcryptoReader ed25519Codec) newKt).1 localFile
      "ssh-ed25519 AAAAC3Nza_broken bob\n".toList (Or.inr (by decide)) (by decide) (by decide)⟩,
   ⟨((parseKeys_error_of_unparsable_tail (xcryptoReader ed25519Codec) newKt).2 localFile
      "ssh-ed25519 AAAAC3Nza_broken bob".toList (textK2 ++ " work\n".toList)
      (Or.inr (by decide)) (by decide) (by decide) (by decide)).1,
    ((parseKeys_error_of_unparsable_tail (xcryptoReader ed25519Codec) newKt).2 localFile
      "ssh-ed25519 AAAAC3Nza_broken bob".toList (textK2 ++ " work\n".toList)
      (Or.inr (by decide)) (by decide) (by decide) (by decide)).2,
    by decide⟩⟩

/-! ## The destination of the output -/

theorem cleanElems_ne_nil (rooted : Bool) (es : List Text) :
    ∀ out : List Text, (∀ o ∈ out, o ≠ []) → ∀ o ∈ cleanElems rooted es out, o ≠ [] := by
  induction es with
  | nil => intro out h; exact h
  | cons e es ih =>
    intro out h
    unfold cleanElems
    split
    · exact ih out h
    · rename_i hne
      have hene : e ≠ [] := fun hc => hne (Or.inl hc)
      split
      · split
        · split
          · exact ih [] (by simp)
          · exact ih [e] (by intro o ho; rw [List.mem_singleton.1 ho]; exact hene)
        · rename_i o os
          split
          · apply ih
            intro x hx
            rcases List.mem_cons.1 hx with rfl | hx
            · exact hene
            · exact h x hx
          · exact ih os (fun x hx => h x (List.mem_cons_of_mem _ hx))
      · apply ih
        intro x hx
        rcases List.mem_cons.1 hx with rfl | hx
        · exact hene
        · exact h x hx

theorem intercalate_ne_nil (sep : Text) (l : List Text) (hl : l ≠ []) (h : ∀ o ∈ l, o ≠ []) :
    sep.intercalate l ≠ [] := by
  cases l with
  | nil => exact absurd rfl hl
  | cons a as =>
    have ha := h a (List.mem_cons_self _ _)
    cases a with
    | nil => exact absurd rfl ha
    | cons c cs =>
      cases as with
      | nil => simp [List.intercalate]
      | cons b bs => simp [List.intercalate, List.intersperse]

theorem Clean_ne_nil (path : Text) : Clean path ≠ [] := by
  unfold Clean
  simp only
  split
  · exact List.cons_ne_nil _ _
  · split
    · decide
    · rename_i hne
      apply intercalate_ne_nil _ _ hne
      intro o ho
      exact cleanElems_ne_nil _ _ [] (by simp) o (List.mem_reverse.1 ho)

theorem getDefaultSSHPath_ne_nil (home : Text) : getDefaultSSHPath home ≠ [] := by
  unfold getDefaultSSHPath filepathJoin
  cases home with
  | nil =>
    have : List.dropWhile (fun x : Text => decide (x = [])) [[], ".ssh".toList,
        "authorized_keys".toList] = [".ssh".toList, "authorized_keys".toList] := by decide
    rw [this]
    exact Clean_ne_nil _
  | cons c cs =>
    have : List.dropWhile (fun x : Text => decide (x = [])) [c :: cs, ".ssh".toList,
        "authorized_keys".toList] = [c :: cs, ".ssh".toList, "authorized_keys".toList] := by
      simp [List.dropWhile_cons]
    rw [this]
    exact Clean_ne_nil _

/-- C9 (defect). With `-o` not given, `main` opens the file whose name is the
empty string: the target is `os.OpenFile("", ...)`, which is not the default
path `getDefaultSSHPath()`, and `main` never writes to the default path
unless `-o` names it.  With `-` the target is standard output and with any
other value the file of that name.  `getLocalKeys` does use the default path
when `-l` is not given. -/
theorem output_default_not_applied :
    outputTarget [] = Target.file [] ∧
    (∀ home : Text, outputTarget [] ≠ Target.file (getDefaultSSHPath home)) ∧
    getDefaultSSHPath "/home/alice".toList = "/home/alice/.ssh/authorized_keys".toList ∧
    outputTarget "-".toList = Target.stdout ∧
    (∀ name : Text, name ≠ "-".toList → outputTarget name = Target.file name) ∧
    (∀ (Key : Type) (lib : SSH Key) (env : Env Key) (noWarn : Bool) (loadLocal : Text)
        (args : List Text) (lines log : List Text),
      main lib env { output := [], noWarn := noWarn, loadLocal := loadLocal } args ≠
        MainResult.wrote (Target.file (getDefaultSSHPath env.home)) lines log) ∧
    (∀ (Key : Type) (lib : SSH Key) (env : Env Key) (output : Text) (noWarn : Bool)
        (data : Text), env.ReadFile (getDefaultSSHPath env.home) = Except.ok data →
      getLocalKeys lib env { output := output, noWarn := noWarn, loadLocal := [] } =
        (some (parseKeys lib newKt data).1, (parseKeys lib newKt data).2)) := by
  refine ⟨rfl, ?_, by decide, rfl, ?_, ?_, ?_⟩
  · intro home h
    have h2 : outputTarget [] = Target.file [] := rfl
    rw [h2] at h
    injection h with h3
    exact getDefaultSSHPath_ne_nil home h3.symm
  · intro name hname
    unfold outputTarget
    rw [if_neg hname]
  · intro Key lib env noWarn loadLocal args lines log h
    unfold main at h
    have h2 : outputTarget [] = Target.file [] := rfl
    simp only [h2] at h
    split at h
    · exact MainResult.noConfusion h
    · exact MainResult.noConfusion h
    · split at h
      · exact MainResult.noConfusion h
      · exact MainResult.noConfusion h
      · split at h
        · exact MainResult.noConfusion h
        · injection h with h3 _ _
          injection h3 with h4
          exact getDefaultSSHPath_ne_nil env.home h4.symm
  · intro Key lib env output noWarn data hread
    unfold getLocalKeys
    simp only [if_true, hread]

/-! ## Arguments that name no source -/

theorem getRemoteKeysLoop_bad_arg (lib : SSH Key) (env : Env Key) (bad : Text)
    (post : List Text)
    (hbad : bad.contains ':' = false ∨ SourceTable (bad.takeWhile (· != ':')) = none)
    (pre : List Text) :
    ∀ (n : Nat) (kt : KeyTable Key) (fetched : List Text),
      getRemoteKeysLoop lib env (pre ++ bad :: post) n kt fetched =
        withUsage (getRemoteKeysLoop lib env pre n kt fetched) := by
  induction pre with
  | nil =>
    intro n kt fetched
    have hnil : getRemoteKeysLoop lib env [] n kt fetched =
        { kt := some kt, err := none, usage := false, fetched := fetched } := rfl
    rw [List.nil_append, hnil]
    conv_lhs => unfold getRemoteKeysLoop
    rcases hbad with h | h
    · simp only [h, Bool.not_false, if_true]
      rfl
    · split
      · rfl
      · simp only [h]
        rfl
  | cons a pre ih =>
    intro n kt fetched
    rw [List.cons_append]
    rw [getRemoteKeysLoop, getRemoteKeysLoop]
    split
    · rfl
    · dsimp only
      split
      · rfl
      · split
        · rfl
        · split
          · exact ih _ _ _
          · split
            · rfl
            · exact ih _ _ _

theorem main_congr (lib : SSH Key) (env : Env Key) (flags : Flags) (args1 args2 : List Text)
    (hkt : (getRemoteKeys lib env args1).kt = (getRemoteKeys lib env args2).kt)
    (herr : (getRemoteKeys lib env args1).err = (getRemoteKeys lib env args2).err) :
    main lib env flags args1 = main lib env flags args2 := by
  unfold main
  generalize getRemoteKeys lib env args1 = r1 at hkt herr
  generalize getRemoteKeys lib env args2 = r2 at hkt herr
  obtain ⟨k1, e1, u1, f1⟩ := r1
  obtain ⟨k2, e2, u2, f2⟩ := r2
  simp only at hkt herr
  subst hkt herr
  cases k1 <;> cases e1 <;> rfl

/-- Counterexample to C10: the second argument has no colon, but the request
for the first argument fails, so `getRemoteKeys` returns an error and no
table. -/
theorem getRemoteKeys_error_before_bad_arg :
    ("oops".toList.contains ':') = false ∧
    getRemoteKeys ed25519 offlineEnv ["gh:alice".toList, "oops".toList] =
      { kt := none, err := some "gh(alice):no route to host".toList, usage := false,
        fetched := ["https://github.com/alice.keys".toList] } := by
  decide

theorem getRemoteKeysLoop_kt_of_no_error (lib : SSH Key) (env : Env Key) (args : List Text) :
    ∀ (n : Nat) (kt : KeyTable Key) (fetched : List Text),
      (getRemoteKeysLoop lib env args n kt fetched).err = none →
      (getRemoteKeysLoop lib env args n kt fetched).kt ≠ none := by
  induction args with
  | nil => intro n kt fetched _ hc; exact Option.noConfusion hc
  | cons a args ih =>
    intro n kt fetched
    rw [getRemoteKeysLoop]
    split
    · intro _ hc; exact Option.noConfusion hc
    · dsimp only
      split
      · intro _ hc; exact Option.noConfusion hc
      · split
        · intro h; exact Option.noConfusion h
        · split
          · exact ih _ _ _
          · split
            · intro h; exact Option.noConfusion h
            · exact ih _ _ _

theorem getRemoteKeysLoop_kt_of_error (lib : SSH Key) (env : Env Key) (args : List Text) :
    ∀ (n : Nat) (kt : KeyTable Key) (fetched : List Text),
      (getRemoteKeysLoop lib env args n kt fetched).err ≠ none →
      (getRemoteKeysLoop lib env args n kt fetched).kt = none := by
  induction args with
  | nil => intro n kt fetched h; exact absurd rfl h
  | cons a args ih =>
    intro n kt fetched
    rw [getRemoteKeysLoop]
    split
    · intro h; exact absurd rfl h
    · dsimp only
      split
      · intro h; exact absurd rfl h
      · split
        · intro _; rfl
        · split
          · exact ih _ _ _
          · split
            · intro _; rfl
            · exact ih _ _ _

theorem main_of_error (lib : SSH Key) (env : Env Key) (flags : Flags) (args : List Text)
    (err : Text) (h : (getRemoteKeys lib env args).err = some err) :
    main lib env flags args = MainResult.fatal err [] := by
  unfold main
  generalize getRemoteKeys lib env args = r at h
  obtain ⟨k, e, u, f⟩ := r
  simp only at h
  subst h
  cases k <;> rfl

/-- C10, amended. When an argument contains no `:` or names a source that is
not in `SourceTable`: if the arguments before it are processed without error,
`getRemoteKeys` stops at that argument, returns a nil error and the table
aggregated from the arguments before it, requests no URL for that argument or
a later one, and `main` goes on exactly as if the command line had ended
before that argument; if fetching or parsing an earlier argument fails,
`getRemoteKeys` returns what it returns for the arguments before, that error
and a nil table.  For every argument list, an error of `getRemoteKeys` comes
with a nil table and ends `main` in `log.Fatal` with that error. -/
theorem getRemoteKeys_stops_at_bad_arg (lib : SSH Key) (env : Env Key) (flags : Flags)
    (pre : List Text) (bad : Text) (post : List Text)
    (hbad : bad.contains ':' = false ∨ SourceTable (bad.takeWhile (· != ':')) = none) :
    ((getRemoteKeys lib env pre).err = none →
      (getRemoteKeys lib env (pre ++ bad :: post)).err = none ∧
      (getRemoteKeys lib env (pre ++ bad :: post)).kt = (getRemoteKeys lib env pre).kt ∧
      (getRemoteKeys lib env (pre ++ bad :: post)).kt ≠ none ∧
      (getRemoteKeys lib env (pre ++ bad :: post)).usage = true ∧
      (getRemoteKeys lib env (pre ++ bad :: post)).fetched =
        (getRemoteKeys lib env pre).fetched ∧
      main lib env flags (pre ++ bad :: post) = main lib env flags pre) ∧
    (∀ err : Text, (getRemoteKeys lib env pre).err = some err →
      getRemoteKeys lib env (pre ++ bad :: post) = getRemoteKeys lib env pre ∧
      (getRemoteKeys lib env (pre ++ bad :: post)).err = some err ∧
      (getRemoteKeys lib env (pre ++ bad :: post)).kt = none ∧
      main lib env flags (pre ++ bad :: post) = MainResult.fatal err []) ∧
    (∀ (args : List Text) (err : Text), (getRemoteKeys lib env args).err = some err →
      (getRemoteKeys lib env args).kt = none ∧
      main lib env flags args = MainResult.fatal err []) := by
  have hall : ∀ (args : List Text) (err : Text), (getRemoteKeys lib env args).err = some err →
      (getRemoteKeys lib env args).kt = none ∧
      main lib env flags args = MainResult.fatal err [] := by
    intro args err h
    refine ⟨?_, main_of_error lib env flags args err h⟩
    apply getRemoteKeysLoop_kt_of_error lib env args 0 newKt []
    intro hc
    unfold getRemoteKeys at h
    rw [hc] at h
    exact Option.noConfusion h
  refine ⟨?_, ?_, hall⟩
  · intro hpre
    have heq : getRemoteKeys lib env (pre ++ bad :: post) =
        { getRemoteKeys lib env pre with usage := true } := by
      unfold getRemoteKeys at hpre ⊢
      rw [getRemoteKeysLoop_bad_arg lib env bad post hbad pre]
      unfold withUsage
      generalize getRemoteKeysLoop lib env pre 0 newKt [] = r at hpre
      obtain ⟨k, e, u, f⟩ := r
      simp only at hpre
      subst hpre
      rfl
    refine ⟨?_, ?_, ?_, ?_, ?_, ?_⟩
    · rw [heq]; exact hpre
    · rw [heq]
    · rw [heq]; exact getRemoteKeysLoop_kt_of_no_error lib env pre 0 newKt [] hpre
    · rw [heq]
    · rw [heq]
    · apply main_congr
      · rw [heq]
      · rw [heq]
  · intro err herr
    have heq : getRemoteKeys lib env (pre ++ bad :: post) = getRemoteKeys lib env pre := by
      unfold getRemoteKeys at herr ⊢
      rw [getRemoteKeysLoop_bad_arg lib env bad post hbad pre]
      unfold withUsage
      rw [herr]
    have herr2 : (getRemoteKeys lib env (pre ++ bad :: post)).err = some err := by
      rw [heq]; exact herr
    exact ⟨heq, herr2, (hall _ err herr2).1, (hall _ err herr2).2⟩

/-- Witness of C10 as amended: `gh:alice oops gl:bob` with the keys of alice
at hand, and `gh:alice oops` without network. -/
theorem getRemoteKeys_stops_at_bad_arg_witness :
    (("oops".toList.contains ':') = false ∨
      SourceTable ("oops".toList.takeWhile (· != ':')) = none) ∧
    (getRemoteKeys ed25519 aliceEnv ["gh:alice".toList]).err = none ∧
    getRemoteKeys ed25519 aliceEnv ["gh:alice".toList, "oops".toList, "gl:bob".toList] =
      { kt := some (mergeKeys ed25519 List.reverse newKt remoteTable false).1,
        err := none, usage := true, fetched := ["https://github.com/alice.keys".toList] } ∧
    main ed25519 aliceEnv { output := "-".toList, noWarn := false, loadLocal := [] }
        (["gh:alice".toList] ++ "oops".toList :: ["gl:bob".toList]) =
      main ed25519 aliceEnv { output := "-".toList, noWarn := false, loadLocal := [] }
        ["gh:alice".toList] ∧
    main ed25519 aliceEnv { output := "-".toList, noWarn := false, loadLocal := [] }
        ["gh:alice".toList] =
      MainResult.wrote Target.stdout
        [textK1 ++ " laptop".toList, textK2 ++ " #ssh-get-id gh:alice".toList]
        ["Already authorized:".toList ++ textK1 ++ " laptop".toList] ∧
    (getRemoteKeys ed25519 offlineEnv ["gh:alice".toList]).err =
      some "gh(alice):no route to host".toList ∧
    (getRemoteKeys ed25519 offlineEnv (["gh:alice".toList] ++ "oops".toList :: [])).kt = none ∧
    main ed25519 offlineEnv { output := "-".toList, noWarn := false, loadLocal := [] }
        (["gh:alice".toList] ++ "oops".toList :: []) =
      MainResult.fatal "gh(alice):no route to host".toList [] :=
  ⟨Or.inl (by decide), by decide, by decide,
    ((getRemoteKeys_stops_at_bad_arg ed25519 aliceEnv
      { output := "-".toList, noWarn := false, loadLocal := [] }
      ["gh:alice".toList] "oops".toList ["gl:bob".toList] (Or.inl (by decide))).1
        (by decide)).2.2.2.2.2,
    by decide, by decide,
    ((getRemoteKeys_stops_at_bad_arg ed25519 offlineEnv
      { output := "-".toList, noWarn := false, loadLocal := [] }
      ["gh:alice".toList] "oops".toList [] (Or.inl (by decide))).2.1
        "gh(alice):no route to host".toList (by decide)).2.2.1,
    ((getRemoteKeys_stops_at_bad_arg ed25519 offlineEnv
      { output := "-".toList, noWarn := false, loadLocal := [] }
      ["gh:alice".toList] "oops".toList [] (Or.inl (by decide))).2.1
        "gh(alice):no route to host".toList (by decide)).2.2.2⟩

/-! ## The tables that `main` merges satisfy the invariant -/

theorem stampComment_consistent (lib : SSH Key) (comment : Text) (kt : KeyTable Key)
    (h : Consistent lib kt) : Consistent lib (stampComment comment kt) := by
  obtain ⟨h1, h2⟩ := h
  constructor
  · simp only [stampComment, h1, List.map_map]
    rfl
  · have : (stampComment comment kt).List.map (identity lib) = kt.List.map (identity lib) := by
      simp only [stampComment, List.map_map]
      rfl
    rw [this]
    exact h2

theorem getRemoteKeysLoop_consistent (lib : SSH Key) (env : Env Key)
    (hrange : ∀ n m, (env.range n m).Perm m) (args : List Text) :
    ∀ (n : Nat) (kt : KeyTable Key) (fetched : List Text) (t : KeyTable Key),
      Consistent lib kt → (getRemoteKeysLoop lib env args n kt fetched).kt = some t →
      Consistent lib t := by
  induction args with
  | nil =>
    intro n kt fetched t hk h
    simp only [getRemoteKeysLoop, Option.some.injEq] at h
    exact h ▸ hk
  | cons a args ih =>
    intro n kt fetched t hk
    rw [getRemoteKeysLoop]
    split
    · intro h
      simp only [Option.some.injEq] at h
      exact h ▸ hk
    · dsimp only
      split
      · intro h
        simp only [Option.some.injEq] at h
        exact h ▸ hk
      · split
        · intro h; exact Option.noConfusion h
        · split
          · exact ih _ _ _ _ hk
          · split
            · intro h; exact Option.noConfusion h
            · rename_i remoteKeys hparse
              apply ih
              apply mergeKeys_consistent lib _ kt _ false hk
              · apply stampComment_consistent
                have hfst := congrArg Prod.fst hparse
                simp only at hfst
                rw [← hfst]
                exact parseKeysLoop_consistent lib _ newKt _ (consistent_newKt lib)
              · exact hrange _ _

theorem getLocalKeys_consistent (lib : SSH Key) (env : Env Key) (flags : Flags)
    (t : KeyTable Key) (h : (getLocalKeys lib env flags).1 = some t) : Consistent lib t := by
  unfold getLocalKeys at h
  dsimp only at h
  split at h
  · simp only [Option.some.injEq] at h
    exact h ▸ consistent_newKt lib
  · split at h
    · exact Option.noConfusion h
    · simp only [Option.some.injEq] at h
      exact h ▸ parseKeysLoop_consistent lib _ newKt _ (consistent_newKt lib)

end SshGetId
